import Mathlib

/-!
Verification of the byte-stream classification and rewriting engine of
node-dos2unix (`lib/dos2unixEventEmitter.js`).

File contents are modelled as `List Nat` (one `Nat` per byte, values < 256
on real inputs; none of the statements need the bound).  The encoding
helper module (`lib/util/encoding`) is not part of the provided source, so
its pure helpers are modelled from the specification (section 4.1).  The
classifier `determineProcessingStatusOfFile` and the rewriter
`convertFileFromDosToUnix` are translated from the source file.
-/

namespace Dos2Unix

/-- Modelled from the spec: the BOM variant enumeration of section 3 of the
specification (the `lib/util/encoding` module is not among the provided
sources). -/
inductive Bom where
  | none
  | utf8
  | utf16le
  | utf16be
  | utf32le
  | utf32be
deriving DecidableEq, Repr

/-- Modelled from the spec: `getBytesPerBom` — the length of the BOM byte
signature to skip for each variant. -/
def getBytesPerBom : Bom → Nat
  | Bom.none => 0
  | Bom.utf8 => 3
  | Bom.utf16le => 2
  | Bom.utf16be => 2
  | Bom.utf32le => 4
  | Bom.utf32be => 4

/-- Modelled from the spec: `getBytesPerControlChar` — the width of one
control unit (1 byte for none/UTF-8, 2 for UTF-16, 4 for UTF-32). -/
def getBytesPerControlChar : Bom → Nat
  | Bom.none => 1
  | Bom.utf8 => 1
  | Bom.utf16le => 2
  | Bom.utf16be => 2
  | Bom.utf32le => 4
  | Bom.utf32be => 4

/-- Modelled from the spec: the encoding-specific byte representation of
carriage return (for example, for UTF-16-LE, CR is 0x0D 0x00). -/
def crPattern : Bom → List Nat
  | Bom.none => [13]
  | Bom.utf8 => [13]
  | Bom.utf16le => [13, 0]
  | Bom.utf16be => [0, 13]
  | Bom.utf32le => [13, 0, 0, 0]
  | Bom.utf32be => [0, 0, 0, 13]

/-- Modelled from the spec: the encoding-specific byte representation of
line feed. -/
def lfPattern : Bom → List Nat
  | Bom.none => [10]
  | Bom.utf8 => [10]
  | Bom.utf16le => [10, 0]
  | Bom.utf16be => [0, 10]
  | Bom.utf32le => [10, 0, 0, 0]
  | Bom.utf32be => [0, 0, 0, 10]

/-- Modelled from the spec: `isByteSequenceCR` compares a control-unit-width
byte window against the encoding-specific representation of CR. -/
def isByteSequenceCR (seq : List Nat) (bom : Bom) : Bool :=
  seq == crPattern bom

/-- Modelled from the spec: `isByteSequenceLF` compares a control-unit-width
byte window against the encoding-specific representation of LF. -/
def isByteSequenceLF (seq : List Nat) (bom : Bom) : Bool :=
  seq == lfPattern bom

/-- Modelled from the spec: `doesByteSequenceSuggestBinary` — the spec's
suggested explicit rule (section 9): a control unit equal to all-zero bytes
(an encoding-appropriate NUL window) indicates binary content. -/
def doesByteSequenceSuggestBinary (seq : List Nat) (bom : Bom) : Bool :=
  seq == List.replicate (getBytesPerControlChar bom) 0

/-- Modelled from the spec: `detectBomFromBuffer` matches the leading bytes
against the known BOM signatures, longer (more specific) signatures first,
returning `none` when nothing matches. -/
def detectBomFromBuffer (buf : List Nat) : Bom :=
  if buf.take 4 == [0, 0, 0xFE, 0xFF] then Bom.utf32be
  else if buf.take 4 == [0xFF, 0xFE, 0, 0] then Bom.utf32le
  else if buf.take 3 == [0xEF, 0xBB, 0xBF] then Bom.utf8
  else if buf.take 2 == [0xFE, 0xFF] then Bom.utf16be
  else if buf.take 2 == [0xFF, 0xFE] then Bom.utf16le
  else Bom.none

/-- Processing status of one file (section 3 of the spec and the string
constants of the source). -/
inductive Status where
  | good
  | bad
  | binary
  | error
deriving DecidableEq, Repr

/-- One step of the scan state machine of `readCallback` (source lines
42-56): given the current window and the previous `lastByteSequenceWasCR`
and `needsFixing` flags, produce the updated pair of flags. -/
def scanStep (bom : Bom) (buf : List Nat) (lastCR needsFixing : Bool) :
    Bool × Bool :=
  if isByteSequenceCR buf bom then (true, needsFixing)
  else (false, needsFixing || (lastCR && isByteSequenceLF buf bom))

/-- Scan loop of `determineProcessingStatusOfFile` (source lines 36-82),
reading one control-unit window per step from the bytes that remain after
the BOM.  The sequential reader is modelled from the spec: a read request
returns the requested number of bytes when that many remain, all remaining
bytes when fewer remain, and 0 bytes at end of file; end of file is reached
exactly when no bytes remain.  The source callback has a branch for
`bytesRead === bytesPerControlChar` (process the window, then finalize when
at end of file), a branch for `bytesRead > 0` (partial window: error), and
no branch at all for a 0-byte read, in which case `done` is never invoked —
modelled as `Option.none` (the classification never completes). -/
def scan (bom : Bom) (bytes : List Nat) (lastCR needsFixing : Bool) :
    Option Status :=
  let w := getBytesPerControlChar bom
  if bytes.isEmpty then Option.none
  else if h : w ≤ bytes.length then
    let buf := bytes.take w
    if doesByteSequenceSuggestBinary buf bom then some Status.binary
    else
      let st := scanStep bom buf lastCR needsFixing
      if (bytes.drop w).isEmpty then
        some (if st.2 then Status.bad else Status.good)
      else
        scan bom (bytes.drop w) st.1 st.2
  else some Status.error
termination_by bytes.length
decreasing_by
  simp only [List.length_drop]
  have hw : 0 < getBytesPerControlChar bom := by
    cases bom <;> simp [getBytesPerControlChar]
  omega

/-- Classifier `determineProcessingStatusOfFile` (source lines 26-104):
detect the BOM from the file's leading bytes, skip it (a file shorter than
its detected BOM is an error), then run the scan loop with both flags
cleared.  `Option.none` means the per-file callback is never invoked. -/
def determineProcessingStatusOfFile (c : List Nat) : Option Status :=
  let bom := detectBomFromBuffer (c.take 4)
  let bytesPerBom := getBytesPerBom bom
  if 0 < bytesPerBom then
    if c.length < bytesPerBom then some Status.error
    else scan bom (c.drop bytesPerBom) false false
  else scan bom c false false

/-- Slice of a byte list, with the clamping semantics of `Buffer.slice`
on nonnegative indices: bytes at positions `i`, `i + 1`, ..., `j - 1`. -/
def bufferSlice (buf : List Nat) (i j : Nat) : List Nat :=
  (buf.drop i).take (j - i)

/-- Rewrite loop of `convertFileFromDosToUnix` (source lines 128-149):
iterate control-unit windows from offset `b`, accumulating the byte
sequences written to the output stream in `acc`.  A CR window only sets the
flag; a LF window preceded by a CR flushes everything up to but excluding
that CR and restarts the pending region at the LF; any other window that is
the last one in the buffer flushes the pending region through the end of
the buffer (`outFile.end`).  When the loop exits without that final flush,
the output stream holds exactly the flushed writes.  The source calls
`isByteSequenceCR(byteSequence)` without its `bom` argument; the encoding
module is not among the provided sources, so the comparison is modelled
from the spec as the encoding-aware one (section 4.3 step 3). -/
def convertLoop (bom : Bom) (buf : List Nat) (b : Nat) (lastCR : Bool)
    (lastWriteIndex : Nat) (acc : List Nat) : List Nat :=
  let w := getBytesPerControlChar bom
  let len := buf.length
  if h : b < len then
    let byteSequence := bufferSlice buf b (b + w)
    if isByteSequenceCR byteSequence bom then
      convertLoop bom buf (b + w) true lastWriteIndex acc
    else if lastCR && isByteSequenceLF byteSequence bom then
      convertLoop bom buf (b + w) false b
        (acc ++ bufferSlice buf lastWriteIndex (b - w))
    else if b + w == len then
      acc ++ bufferSlice buf lastWriteIndex (b + w)
    else
      convertLoop bom buf (b + w) false lastWriteIndex acc
  else acc
termination_by buf.length - b
decreasing_by
  all_goals
    have hw : 0 < getBytesPerControlChar bom := by
      cases bom <;> simp [getBytesPerControlChar]
    omega

/-- Rewriter `convertFileFromDosToUnix` (source lines 106-152) as a
function from the file's byte content to the byte content written to the
output stream: detect the BOM from the first four bytes, then run the
rewrite loop from offset `bytesPerBom` with `lastWriteIndex = 0` (so the
first flush carries the BOM). -/
def convertFileFromDosToUnix (c : List Nat) : List Nat :=
  let bom := detectBomFromBuffer (c.take 4)
  let bytesPerBom := getBytesPerBom bom
  convertLoop bom c bytesPerBom false 0 []

/-- Full control-unit windows of a byte list: successive chunks of `w`
bytes; a final remainder shorter than `w` is not a window. -/
def chunks (w : Nat) (l : List Nat) : List (List Nat) :=
  if h : 0 < w ∧ w ≤ l.length then
    l.take w :: chunks w (l.drop w)
  else []
termination_by l.length
decreasing_by simp only [List.length_drop]; omega

/-- Whether the first window of a window list is an LF window. -/
def nextIsLF (bom : Bom) : List (List Nat) → Bool
  | [] => false
  | nxt :: _ => isByteSequenceLF nxt bom

/-- Rewrite of a window list as the specification words it (section 4.3):
every CR unit immediately followed by an LF unit is omitted, every other
window is kept. -/
def keptWindows (bom : Bom) : List (List Nat) → List (List Nat)
  | [] => []
  | win :: rest =>
    if isByteSequenceCR win bom && nextIsLF bom rest then
      keptWindows bom rest
    else
      win :: keptWindows bom rest

/-- Rewrite as the specification words it: keep the BOM bytes, drop exactly
those CR units immediately followed by an LF unit, keep everything else —
including any ragged tail shorter than one control unit — in order. -/
def specRewrite (c : List Nat) : List Nat :=
  let bom := detectBomFromBuffer (c.take 4)
  let bytesPerBom := getBytesPerBom bom
  let w := getBytesPerControlChar bom
  let payload := c.drop bytesPerBom
  c.take bytesPerBom ++ (keptWindows bom (chunks w payload)).flatten ++
    payload.drop (w * (chunks w payload).length)

/-- Number of CR-immediately-before-LF window pairs in a window list. -/
def countCRLF (bom : Bom) : List (List Nat) → Nat
  | a :: b :: t =>
    (if isByteSequenceCR a bom && isByteSequenceLF b bom then 1 else 0) +
      countCRLF bom (b :: t)
  | _ => 0

/-- Whether a window list contains a CR window immediately followed by an
LF window. -/
def hasCRLF (bom : Bom) : List (List Nat) → Bool
  | a :: b :: t =>
    (isByteSequenceCR a bom && isByteSequenceLF b bom) || hasCRLF bom (b :: t)
  | _ => false

/-- Whether a window list contains a CR window immediately followed by a CR
window immediately followed by an LF window.  Such a triple is exactly the
situation in which dropping the middle CR makes the first CR adjacent to
the LF. -/
def hasCRCRLF (bom : Bom) : List (List Nat) → Bool
  | a :: b :: c :: t =>
    (isByteSequenceCR a bom && isByteSequenceCR b bom &&
      isByteSequenceLF c bom) || hasCRCRLF bom (b :: c :: t)
  | _ => false

/-- Whether a window list begins with a CR window immediately followed by
an LF window. -/
def startsCRLF (bom : Bom) : List (List Nat) → Bool
  | b :: t => isByteSequenceCR b bom && nextIsLF bom t
  | [] => false

/-- Whether the last window of a window list is a CR window. -/
def lastIsCR (bom : Bom) : List (List Nat) → Bool
  | [] => false
  | [a] => isByteSequenceCR a bom
  | _ :: b :: t => lastIsCR bom (b :: t)

/-- Whether the last two windows of a window list form a CR window followed
by an LF window. -/
def endsCRLF (bom : Bom) : List (List Nat) → Bool
  | [a, b] => isByteSequenceCR a bom && isByteSequenceLF b bom
  | _ :: b :: t => endsCRLF bom (b :: t)
  | _ => false

/-- Scan state machine of `determineProcessingStatusOfFile` restated over
the list of full control-unit windows, plus a flag recording whether a
ragged tail (a final partial window) follows them.  `scan` is proved equal
to this below. -/
def scanW (bom : Bom) : List (List Nat) → Bool → Bool → Bool → Option Status
  | [], ragged, _, _ => if ragged then some Status.error else Option.none
  | win :: rest, ragged, lastCR, needsFixing =>
    if doesByteSequenceSuggestBinary win bom then some Status.binary
    else
      let st := scanStep bom win lastCR needsFixing
      if rest.isEmpty && !ragged then
        some (if st.2 then Status.bad else Status.good)
      else scanW bom rest ragged st.1 st.2

/-- Whether the scan, entered with carry flag `lastCR`, would observe a CR
window immediately followed by an LF window somewhere in `ws`. -/
def carryCRLF (bom : Bom) (lastCR : Bool) : List (List Nat) → Bool
  | [] => false
  | win :: rest =>
    (lastCR && isByteSequenceLF win bom) ||
      carryCRLF bom (isByteSequenceCR win bom) rest

/-- Rewrite loop of `convertFileFromDosToUnix` restated over the list of
control-unit windows, carrying the pending not-yet-flushed bytes; the
result is the remaining output (the bytes flushed from this point on).
`convertLoop` is proved equal to this below. -/
def wrun (bom : Bom) : List (List Nat) → Bool → List Nat → List Nat
  | [], _, _ => []
  | win :: rest, lastCR, pending =>
    if isByteSequenceCR win bom then wrun bom rest true (pending ++ win)
    else if lastCR && isByteSequenceLF win bom then
      pending.take (pending.length - getBytesPerControlChar bom) ++
        wrun bom rest false win
    else if rest.isEmpty then pending ++ win
    else wrun bom rest false (pending ++ win)

/-- Classifier body as entered from the `detectBom` callback (source lines
26-34): the callback binds the pair of arguments `(err, bom)` and its body
never consults `err`, so this definition takes the detection-failure flag
and, exactly like the source, ignores it. -/
def determineStatusWithBomOutcome (bomDetectFailed : Bool) (bom : Bom)
    (c : List Nat) : Option Status :=
  let bytesPerBom := getBytesPerBom bom
  if 0 < bytesPerBom then
    if c.length < bytesPerBom then some Status.error
    else scan bom (c.drop bytesPerBom) false false
  else scan bom c false false

/-! Basic facts about the modelled encoding helpers. -/

lemma bytesPerControlChar_pos (bom : Bom) : 0 < getBytesPerControlChar bom := by
  cases bom <;> simp [getBytesPerControlChar]

lemma crPattern_length (bom : Bom) :
    (crPattern bom).length = getBytesPerControlChar bom := by
  cases bom <;> rfl

lemma lfPattern_length (bom : Bom) :
    (lfPattern bom).length = getBytesPerControlChar bom := by
  cases bom <;> rfl

lemma eq_crPattern_of_isCR {s : List Nat} {bom : Bom}
    (h : isByteSequenceCR s bom = true) : s = crPattern bom := by
  simpa [isByteSequenceCR] using h

lemma eq_lfPattern_of_isLF {s : List Nat} {bom : Bom}
    (h : isByteSequenceLF s bom = true) : s = lfPattern bom := by
  simpa [isByteSequenceLF] using h

lemma length_of_isCR {s : List Nat} {bom : Bom}
    (h : isByteSequenceCR s bom = true) :
    s.length = getBytesPerControlChar bom := by
  rw [eq_crPattern_of_isCR h, crPattern_length]

lemma length_of_isLF {s : List Nat} {bom : Bom}
    (h : isByteSequenceLF s bom = true) :
    s.length = getBytesPerControlChar bom := by
  rw [eq_lfPattern_of_isLF h, lfPattern_length]

lemma isLF_eq_false_of_isCR {s : List Nat} {bom : Bom}
    (h : isByteSequenceCR s bom = true) : isByteSequenceLF s bom = false := by
  rw [eq_crPattern_of_isCR h]
  cases bom <;> decide

/-! Structure of `chunks`. -/

lemma chunks_cons {w : Nat} {l : List Nat} (hw : 0 < w) (hl : w ≤ l.length) :
    chunks w l = l.take w :: chunks w (l.drop w) := by
  rw [chunks]
  simp [hw, hl]

lemma chunks_of_lt {w : Nat} {l : List Nat} (hl : l.length < w) :
    chunks w l = [] := by
  rw [chunks]
  have : ¬ (0 < w ∧ w ≤ l.length) := by omega
  simp [this]

lemma chunks_nil (w : Nat) : chunks w [] = [] := by
  have h : ¬ (0 < w ∧ w ≤ ([] : List Nat).length) := by
    simp only [List.length_nil]
    omega
  rw [chunks, dif_neg h]

lemma length_of_mem_chunks {w : Nat} {l win : List Nat}
    (h : win ∈ chunks w l) : win.length = w := by
  suffices H : ∀ n l', l'.length ≤ n → win ∈ chunks w l' → win.length = w from
    H l.length l le_rfl h
  intro n
  induction n with
  | zero =>
    intro l' hlen hmem
    have hl : l' = [] := by
      cases l' with
      | nil => rfl
      | cons a t => simp at hlen
    rw [hl, chunks_nil] at hmem
    simp at hmem
  | succ n ih =>
    intro l' hlen hmem
    by_cases hc : 0 < w ∧ w ≤ l'.length
    · rw [chunks_cons hc.1 hc.2] at hmem
      rcases List.mem_cons.mp hmem with h1 | h2
      · rw [h1, List.length_take]
        omega
      · exact ih (l'.drop w) (by simp; omega) h2
    · have : chunks w l' = [] := by
        rw [chunks]
        simp [hc]
      rw [this] at hmem
      simp at hmem

lemma chunks_flatten {w : Nat} (hw : 0 < w) {l : List Nat} (hd : w ∣ l.length) :
    (chunks w l).flatten = l := by
  suffices H : ∀ n l', l'.length ≤ n → w ∣ l'.length → (chunks w l').flatten = l' from
    H l.length l le_rfl hd
  intro n
  induction n with
  | zero =>
    intro l' hlen _
    have hl : l' = [] := by
      cases l' with
      | nil => rfl
      | cons a t => simp at hlen
    rw [hl, chunks_nil]
    rfl
  | succ n ih =>
    intro l' hlen hdvd
    by_cases hc : w ≤ l'.length
    · rw [chunks_cons hw hc]
      rw [List.flatten_cons]
      rw [ih (l'.drop w) (by simp; omega) (by simp; exact (Nat.dvd_sub' hdvd dvd_rfl))]
      exact List.take_append_drop w l'
    · have h0 : l'.length = 0 := by
        rcases hdvd with ⟨k, hk⟩
        rcases Nat.eq_zero_or_pos k with rfl | hkpos
        · omega
        · have : w ≤ w * k := Nat.le_mul_of_pos_right w hkpos
          omega
      have hl : l' = [] := List.eq_nil_of_length_eq_zero h0
      rw [hl, chunks_nil]
      rfl

lemma chunks_length_mul {w : Nat} (hw : 0 < w) {l : List Nat}
    (hd : w ∣ l.length) : w * (chunks w l).length = l.length := by
  suffices H : ∀ n l', l'.length ≤ n → w ∣ l'.length →
      w * (chunks w l').length = l'.length from H l.length l le_rfl hd
  intro n
  induction n with
  | zero =>
    intro l' hlen _
    have hl : l' = [] := by
      cases l' with
      | nil => rfl
      | cons a t => simp at hlen
    rw [hl, chunks_nil]
    simp
  | succ n ih =>
    intro l' hlen hdvd
    by_cases hc : w ≤ l'.length
    · rw [chunks_cons hw hc]
      have := ih (l'.drop w) (by simp; omega) (by simp; exact (Nat.dvd_sub' hdvd dvd_rfl))
      simp only [List.length_cons, List.length_drop] at this ⊢
      rw [Nat.mul_succ]
      omega
    · have h0 : l'.length = 0 := by
        rcases hdvd with ⟨k, hk⟩
        rcases Nat.eq_zero_or_pos k with rfl | hkpos
        · omega
        · have : w ≤ w * k := Nat.le_mul_of_pos_right w hkpos
          omega
      have hl : l' = [] := List.eq_nil_of_length_eq_zero h0
      rw [hl, chunks_nil]
      simp

lemma chunks_of_flatten {w : Nat} (hw : 0 < w) {L : List (List Nat)}
    (h : ∀ win ∈ L, win.length = w) : chunks w L.flatten = L := by
  induction L with
  | nil => simpa using chunks_nil w
  | cons win rest ih =>
    have hwin : win.length = w := h win (by simp)
    have hrest : ∀ x ∈ rest, x.length = w := fun x hx => h x (by simp [hx])
    have hlen : w ≤ ((win :: rest).flatten).length := by
      rw [List.flatten_cons]
      simp [hwin]
    rw [chunks_cons hw hlen, List.flatten_cons]
    congr 1
    · exact List.take_left' hwin
    · rw [List.drop_left' hwin]
      exact ih hrest

/-! Facts about one scan step. -/

lemma scanStep_fst (bom : Bom) (win : List Nat) (lastCR nf : Bool) :
    (scanStep bom win lastCR nf).1 = isByteSequenceCR win bom := by
  cases h : isByteSequenceCR win bom <;> simp [scanStep, h]

lemma scanStep_snd (bom : Bom) (win : List Nat) (lastCR nf : Bool) :
    (scanStep bom win lastCR nf).2 =
      (nf || (lastCR && isByteSequenceLF win bom)) := by
  cases h : isByteSequenceCR win bom
  · simp [scanStep, h]
  · simp [scanStep, h, isLF_eq_false_of_isCR h]

/-! The byte-level scan equals the window-level scan. -/

lemma scan_eq_scanW (bom : Bom) (bytes : List Nat) (lastCR nf : Bool) :
    scan bom bytes lastCR nf =
      scanW bom (chunks (getBytesPerControlChar bom) bytes)
        (bytes.length % getBytesPerControlChar bom != 0) lastCR nf := by
  have hw : 0 < getBytesPerControlChar bom := bytesPerControlChar_pos bom
  set w := getBytesPerControlChar bom with hwdef
  suffices H : ∀ n l, l.length ≤ n → ∀ cr nf₀,
      scan bom l cr nf₀ = scanW bom (chunks w l) (l.length % w != 0) cr nf₀ from
    H bytes.length bytes le_rfl lastCR nf
  intro n
  induction n with
  | zero =>
    intro l hlen cr nf₀
    have hl : l = [] := by
      cases l with
      | nil => rfl
      | cons a t => simp at hlen
    subst hl
    rw [scan, chunks_nil]
    simp [scanW, Nat.zero_mod]
  | succ n ih =>
    intro l hlen cr nf₀
    by_cases hemp : l = []
    · subst hemp
      rw [scan, chunks_nil]
      simp [scanW, Nat.zero_mod]
    · have hne : l.isEmpty = false := by
        simpa [List.isEmpty_iff] using hemp
      by_cases hc : w ≤ l.length
      · rw [scan, chunks_cons hw hc, scanW]
        simp only [hne, Bool.false_eq_true, if_false, ← hwdef, dif_pos hc]
        by_cases hbin : doesByteSequenceSuggestBinary (l.take w) bom = true
        · simp [hbin]
        · rw [Bool.not_eq_true] at hbin
          simp only [hbin, Bool.false_eq_true, if_false]
          by_cases heof : l.drop w = []
          · have hlw : l.length = w := by
              have := congrArg List.length heof
              simp at this
              omega
            have hmod : l.length % w = 0 := by
              rw [hlw]
              exact Nat.mod_self w
            rw [heof, chunks_nil]
            simp [hmod]
          · have heof' : (l.drop w).isEmpty = false := by
              simpa [List.isEmpty_iff] using heof
            have hdroplen : 0 < (l.drop w).length := List.length_pos.mpr heof
            have hmodeq : (l.drop w).length % w = l.length % w := by
              simp only [List.length_drop]
              exact (Nat.mod_eq_sub_mod hc).symm
            have hcond :
                ((chunks w (l.drop w)).isEmpty && !(l.length % w != 0)) = false := by
              by_cases hck : chunks w (l.drop w) = []
              · have hlt : (l.drop w).length < w := by
                  by_contra hge
                  rw [chunks_cons hw (by omega)] at hck
                  simp at hck
                have hmodne : l.length % w ≠ 0 := by
                  rw [← hmodeq, Nat.mod_eq_of_lt hlt]
                  omega
                simp [hmodne]
              · have : (chunks w (l.drop w)).isEmpty = false := by
                  simpa [List.isEmpty_iff] using hck
                simp [this]
            rw [heof', hcond]
            simp only [Bool.false_eq_true, if_false]
            have hrec := ih (l.drop w) (by simp; omega)
              (scanStep bom (l.take w) cr nf₀).1 (scanStep bom (l.take w) cr nf₀).2
            rw [hmodeq] at hrec
            exact hrec
      · have hchunks : chunks w l = [] := chunks_of_lt (by omega)
        have hlenpos : 0 < l.length := List.length_pos.mpr hemp
        have hmod : l.length % w = l.length := Nat.mod_eq_of_lt (by omega)
        have hragged : (l.length % w != 0) = true := by
          rw [hmod]
          simpa using (by omega : l.length ≠ 0)
        rw [scan, hchunks, hragged]
        simp only [hne, Bool.false_eq_true, if_false, ← hwdef, dif_neg hc]
        simp [scanW]

/-! Carry-in formulation of the CRLF search. -/

lemma carryCRLF_false_eq_hasCRLF (bom : Bom) :
    ∀ ws, carryCRLF bom false ws = hasCRLF bom ws := by
  intro ws
  induction ws with
  | nil => rfl
  | cons a rest ih =>
    cases rest with
    | nil => simp [carryCRLF, hasCRLF]
    | cons b t =>
      have h1 : carryCRLF bom false (b :: t) =
          carryCRLF bom (isByteSequenceCR b bom) t := by
        simp [carryCRLF]
      calc carryCRLF bom false (a :: b :: t)
          = ((isByteSequenceCR a bom && isByteSequenceLF b bom) ||
              carryCRLF bom (isByteSequenceCR b bom) t) := by
            simp [carryCRLF]
        _ = ((isByteSequenceCR a bom && isByteSequenceLF b bom) ||
              hasCRLF bom (b :: t)) := by rw [← ih, h1]
        _ = hasCRLF bom (a :: b :: t) := by simp [hasCRLF]

/-- Running the window scan over a full (non-ragged) window list with no
binary window finalizes with `bad` exactly when a CRLF pair (including one
carried in through `lastCR`) is present. -/
lemma scanW_run (bom : Bom) :
    ∀ (ws : List (List Nat)) (lastCR nf : Bool), ws ≠ [] →
      (∀ win ∈ ws, doesByteSequenceSuggestBinary win bom = false) →
      scanW bom ws false lastCR nf =
        some (if nf || carryCRLF bom lastCR ws then Status.bad
              else Status.good) := by
  intro ws
  induction ws with
  | nil => intro _ _ h; exact absurd rfl h
  | cons win rest ih =>
    intro lastCR nf _ hbin
    have hwin : doesByteSequenceSuggestBinary win bom = false :=
      hbin win (by simp)
    cases rest with
    | nil =>
      simp only [scanW, hwin, Bool.false_eq_true, if_false,
        List.isEmpty_nil, Bool.not_false, Bool.and_self, if_true]
      rw [scanStep_snd]
      simp [carryCRLF]
    | cons b t =>
      have hbr : ∀ x ∈ (b :: t), doesByteSequenceSuggestBinary x bom = false :=
        fun x hx => hbin x (by simp [hx])
      rw [scanW]
      simp only [hwin, Bool.false_eq_true, if_false,
        List.isEmpty_cons, Bool.false_and]
      rw [ih (scanStep bom win lastCR nf).1 (scanStep bom win lastCR nf).2
        (by simp) hbr]
      rw [scanStep_fst, scanStep_snd]
      congr 1
      simp [carryCRLF, Bool.or_assoc]

/-- A window scan that returns a status other than `binary` and `error`
ran over a non-ragged, nonempty window list with no binary window. -/
lemma scanW_inv (bom : Bom) :
    ∀ (ws : List (List Nat)) (ragged lastCR nf : Bool) (s : Status),
      scanW bom ws ragged lastCR nf = some s →
      s ≠ Status.binary → s ≠ Status.error →
      ragged = false ∧ ws ≠ [] ∧
        ∀ win ∈ ws, doesByteSequenceSuggestBinary win bom = false := by
  intro ws
  induction ws with
  | nil =>
    intro ragged lastCR nf s heq hb he
    cases ragged with
    | false => simp [scanW] at heq
    | true =>
      simp [scanW] at heq
      exact absurd heq.symm he
  | cons win rest ih =>
    intro ragged lastCR nf s heq hb he
    by_cases hwin : doesByteSequenceSuggestBinary win bom = true
    · simp [scanW, hwin] at heq
      exact absurd heq.symm hb
    · rw [Bool.not_eq_true] at hwin
      simp only [scanW, hwin, Bool.false_eq_true, if_false] at heq
      by_cases hcond : (rest.isEmpty && !ragged) = true
      · obtain ⟨h1, h2⟩ := Bool.and_eq_true_iff.mp hcond
        refine ⟨by simpa using h2, by simp, ?_⟩
        intro x hx
        rcases List.mem_cons.mp hx with rfl | hx2
        · exact hwin
        · rw [List.isEmpty_iff.mp h1] at hx2
          simp at hx2
      · rw [Bool.not_eq_true] at hcond
        rw [hcond] at heq
        simp only [Bool.false_eq_true, if_false] at heq
        obtain ⟨hrag, _, hbinrest⟩ := ih ragged _ _ s heq hb he
        refine ⟨hrag, by simp, ?_⟩
        intro x hx
        rcases List.mem_cons.mp hx with rfl | hx2
        · exact hwin
        · exact hbinrest x hx2

/-! Unfolding the classifier to the scan of the payload. -/

lemma determine_eq_scan (c : List Nat)
    (h : getBytesPerBom (detectBomFromBuffer (c.take 4)) ≤ c.length) :
    determineProcessingStatusOfFile c =
      scan (detectBomFromBuffer (c.take 4))
        (c.drop (getBytesPerBom (detectBomFromBuffer (c.take 4))))
        false false := by
  unfold determineProcessingStatusOfFile
  by_cases hp : 0 < getBytesPerBom (detectBomFromBuffer (c.take 4))
  · simp [hp, Nat.not_lt.mpr h]
  · have hz : getBytesPerBom (detectBomFromBuffer (c.take 4)) = 0 := by omega
    simp [hp, hz]

lemma determine_some_inv (c : List Nat) (s : Status)
    (h : determineProcessingStatusOfFile c = some s) (he : s ≠ Status.error) :
    getBytesPerBom (detectBomFromBuffer (c.take 4)) ≤ c.length := by
  by_contra hlt
  rw [Nat.not_le] at hlt
  have hp : 0 < getBytesPerBom (detectBomFromBuffer (c.take 4)) := by omega
  unfold determineProcessingStatusOfFile at h
  simp only [hp, if_true, hlt, if_pos] at h
  exact he (Option.some.inj h).symm

/-- C2: for every fully scanned, non-binary, readable file (the
classification completed and returned a status other than `binary` and
`error`), the status is `bad` if and only if the payload after the BOM
contains a CR control unit immediately followed by an LF control unit; in
particular a file with no CR unit, or whose only CR is a trailing lone CR,
is classified `good`. -/
theorem C2_bad_iff_crlf (c : List Nat) (s : Status)
    (h : determineProcessingStatusOfFile c = some s)
    (hb : s ≠ Status.binary) (he : s ≠ Status.error) :
    (s = Status.bad ↔
      hasCRLF (detectBomFromBuffer (c.take 4))
        (chunks (getBytesPerControlChar (detectBomFromBuffer (c.take 4)))
          (c.drop (getBytesPerBom (detectBomFromBuffer (c.take 4))))) =
        true) := by
  set bom := detectBomFromBuffer (c.take 4) with hbom
  have hple := determine_some_inv c s h he
  rw [determine_eq_scan c hple] at h
  rw [scan_eq_scanW] at h
  obtain ⟨hrag, hne, hbinf⟩ := scanW_inv bom _ _ _ _ _ h hb he
  rw [hrag] at h
  rw [scanW_run bom _ _ _ hne hbinf] at h
  have hval := Option.some.inj h
  rw [Bool.false_or, carryCRLF_false_eq_hasCRLF] at hval
  cases hcr : hasCRLF bom
      (chunks (getBytesPerControlChar bom) (c.drop (getBytesPerBom bom))) with
  | false =>
    rw [hcr] at hval
    simp only [Bool.false_eq_true, if_false] at hval
    constructor
    · intro hbad
      rw [hbad] at hval
      exact absurd hval (by simp)
    · intro hx
      exact absurd hx (by simp)
  | true =>
    rw [hcr] at hval
    simp only [if_true] at hval
    exact ⟨fun _ => rfl, fun _ => hval.symm⟩

/-- Witness for C2 at the content of Scenario A, the bytes of the text
a CR LF b. -/
theorem C2_bad_iff_crlf_witness :
    determineProcessingStatusOfFile [97, 13, 10, 98] = some Status.bad ∧
    (Status.bad = Status.bad ↔
      hasCRLF (detectBomFromBuffer ([97, 13, 10, 98].take 4))
        (chunks
          (getBytesPerControlChar (detectBomFromBuffer ([97, 13, 10, 98].take 4)))
          ([97, 13, 10, 98].drop
            (getBytesPerBom (detectBomFromBuffer ([97, 13, 10, 98].take 4))))) =
        true) := by
  have h : determineProcessingStatusOfFile [97, 13, 10, 98] = some Status.bad := by
    simp [determineProcessingStatusOfFile, detectBomFromBuffer, getBytesPerBom,
      scan, scanStep, isByteSequenceCR, isByteSequenceLF,
      doesByteSequenceSuggestBinary, crPattern, lfPattern,
      getBytesPerControlChar]
  exact ⟨h, C2_bad_iff_crlf [97, 13, 10, 98] Status.bad h
    (by decide) (by decide)⟩

/-! Facts about buffer slices. -/

lemma bufferSlice_append (buf : List Nat) {i j k : Nat} (hij : i ≤ j)
    (hjk : j ≤ k) :
    bufferSlice buf i j ++ bufferSlice buf j k = bufferSlice buf i k := by
  unfold bufferSlice
  have hdrop : buf.drop j = (buf.drop i).drop (j - i) := by
    rw [List.drop_drop]
    congr 1
    omega
  rw [hdrop, ← List.take_add]
  congr 1
  omega

lemma bufferSlice_length (buf : List Nat) {i j : Nat} (hij : i ≤ j)
    (hj : j ≤ buf.length) : (bufferSlice buf i j).length = j - i := by
  unfold bufferSlice
  rw [List.length_take, List.length_drop]
  omega

lemma bufferSlice_flush (buf : List Nat) {i j w : Nat} (hij : i ≤ j)
    (hj : j ≤ buf.length) :
    (bufferSlice buf i j).take ((bufferSlice buf i j).length - w) =
      bufferSlice buf i (j - w) := by
  rw [bufferSlice_length buf hij hj]
  unfold bufferSlice
  rw [List.take_take]
  congr 1
  omega

lemma bufferSlice_zero_take (buf : List Nat) (j : Nat) :
    bufferSlice buf 0 j = buf.take j := by
  unfold bufferSlice
  simp

/-! The index-based rewrite loop equals the window-level rewrite loop. -/

lemma convertLoop_eq_wrun (bom : Bom) (buf : List Nat) :
    ∀ (n b lwi : Nat) (lastCR : Bool) (acc : List Nat),
      buf.length - b ≤ n → lwi ≤ b → b ≤ buf.length →
      getBytesPerControlChar bom ∣ (buf.length - b) →
      convertLoop bom buf b lastCR lwi acc =
        acc ++ wrun bom (chunks (getBytesPerControlChar bom) (buf.drop b))
          lastCR (bufferSlice buf lwi b) := by
  have hw : 0 < getBytesPerControlChar bom := bytesPerControlChar_pos bom
  intro n
  induction n with
  | zero =>
    intro b lwi lastCR acc hn hlb hble _
    have hb : ¬ b < buf.length := by omega
    rw [convertLoop, dif_neg hb]
    have hnil : buf.drop b = [] := List.drop_eq_nil_of_le (by omega)
    rw [hnil, chunks_nil]
    simp [wrun]
  | succ n ih =>
    intro b lwi lastCR acc hn hlb hble hdvd
    by_cases hb : b < buf.length
    · have hwle : getBytesPerControlChar bom ≤ buf.length - b := by
        rcases hdvd with ⟨k, hk⟩
        rcases Nat.eq_zero_or_pos k with rfl | hkpos
        · omega
        · have := Nat.le_mul_of_pos_right (getBytesPerControlChar bom) hkpos
          omega
      have hbw : b + getBytesPerControlChar bom ≤ buf.length := by omega
      have hdvd' : getBytesPerControlChar bom ∣
          (buf.length - (b + getBytesPerControlChar bom)) := by
        have : buf.length - (b + getBytesPerControlChar bom) =
            (buf.length - b) - getBytesPerControlChar bom := by omega
        rw [this]
        exact Nat.dvd_sub' hdvd dvd_rfl
      have hchunk : chunks (getBytesPerControlChar bom) (buf.drop b) =
          bufferSlice buf b (b + getBytesPerControlChar bom) ::
            chunks (getBytesPerControlChar bom)
              (buf.drop (b + getBytesPerControlChar bom)) := by
        rw [chunks_cons hw (by simp only [List.length_drop]; omega)]
        congr 1
        · unfold bufferSlice
          congr 1
          omega
        · rw [List.drop_drop]
      have hslicecat : bufferSlice buf lwi b ++
          bufferSlice buf b (b + getBytesPerControlChar bom) =
          bufferSlice buf lwi (b + getBytesPerControlChar bom) :=
        bufferSlice_append buf hlb (by omega)
      rw [convertLoop, dif_pos hb, hchunk, wrun]
      by_cases hcr :
          isByteSequenceCR (bufferSlice buf b (b + getBytesPerControlChar bom))
            bom = true
      · simp only [hcr, if_true]
        rw [ih (b + getBytesPerControlChar bom) lwi true acc (by omega)
          (by omega) hbw hdvd']
        rw [hslicecat]
      · rw [Bool.not_eq_true] at hcr
        simp only [hcr, Bool.false_eq_true, if_false]
        by_cases hlf : (lastCR &&
            isByteSequenceLF
              (bufferSlice buf b (b + getBytesPerControlChar bom)) bom) = true
        · simp only [hlf, if_true]
          rw [ih (b + getBytesPerControlChar bom) b false
            (acc ++ bufferSlice buf lwi (b - getBytesPerControlChar bom))
            (by omega) (by omega) hbw hdvd']
          rw [bufferSlice_flush buf hlb (by omega)]
          rw [List.append_assoc]
        · rw [Bool.not_eq_true] at hlf
          simp only [hlf, Bool.false_eq_true, if_false]
          by_cases hfin : b + getBytesPerControlChar bom = buf.length
          · have hbeq : (b + getBytesPerControlChar bom == buf.length) = true := by
              simp [hfin]
            simp only [hbeq, if_true]
            have hrest : buf.drop (b + getBytesPerControlChar bom) = [] :=
              List.drop_eq_nil_of_le (by omega)
            rw [hrest, chunks_nil]
            simp only [List.isEmpty_nil, Bool.true_and, if_true]
            rw [hslicecat]
          · have hbeq : (b + getBytesPerControlChar bom == buf.length) = false := by
              simp [hfin]
            simp only [hbeq, Bool.false_eq_true, if_false]
            have hrestlen : getBytesPerControlChar bom ≤
                (buf.drop (b + getBytesPerControlChar bom)).length := by
              simp only [List.length_drop]
              rcases hdvd' with ⟨k, hk⟩
              rcases Nat.eq_zero_or_pos k with rfl | hkpos
              · omega
              · have := Nat.le_mul_of_pos_right (getBytesPerControlChar bom) hkpos
                omega
            have hrestne : chunks (getBytesPerControlChar bom)
                (buf.drop (b + getBytesPerControlChar bom)) ≠ [] := by
              rw [chunks_cons hw hrestlen]
              simp
            have hrestempty : (chunks (getBytesPerControlChar bom)
                (buf.drop (b + getBytesPerControlChar bom))).isEmpty = false := by
              simpa [List.isEmpty_iff] using hrestne
            simp only [hrestempty, Bool.false_eq_true, if_false]
            rw [ih (b + getBytesPerControlChar bom) lwi false acc (by omega)
              (by omega) hbw hdvd']
            rw [hslicecat]
    · have hb' : ¬ b < buf.length := hb
      rw [convertLoop, dif_neg hb']
      have hnil : buf.drop b = [] := List.drop_eq_nil_of_le (by omega)
      rw [hnil, chunks_nil]
      simp [wrun]

/-! Facts about the end-of-list predicates. -/

lemma lastIsCR_cons (bom : Bom) (a b : List Nat) (t : List (List Nat)) :
    lastIsCR bom (a :: b :: t) = lastIsCR bom (b :: t) := rfl

lemma endsCRLF_cons_cons (bom : Bom) (a b c : List Nat)
    (t : List (List Nat)) :
    endsCRLF bom (a :: b :: c :: t) = endsCRLF bom (b :: c :: t) := rfl

lemma endsCRLF_pair (bom : Bom) (a b : List Nat) :
    endsCRLF bom [a, b] =
      (isByteSequenceCR a bom && isByteSequenceLF b bom) := rfl

lemma endsCRLF_single (bom : Bom) (a : List Nat) :
    endsCRLF bom [a] = false := rfl

lemma cond_tail (bom : Bom) {win : List Nat} {rest : List (List Nat)}
    (hrest : rest ≠ []) (hlast : lastIsCR bom (win :: rest) = false)
    (hends : endsCRLF bom (win :: rest) = false) :
    lastIsCR bom rest = false ∧ endsCRLF bom rest = false := by
  cases rest with
  | nil => exact absurd rfl hrest
  | cons b t =>
    refine ⟨by rw [← lastIsCR_cons bom win b t]; exact hlast, ?_⟩
    cases t with
    | nil => exact endsCRLF_single bom b
    | cons c t' =>
      rw [← endsCRLF_cons_cons bom win b c t']
      exact hends

lemma keptWindows_cons (bom : Bom) (win : List Nat)
    (rest : List (List Nat)) :
    keptWindows bom (win :: rest) =
      if isByteSequenceCR win bom && nextIsLF bom rest then
        keptWindows bom rest
      else win :: keptWindows bom rest := rfl

/-- The window-level rewrite loop agrees with the specification's kept
windows, provided the last window is not a CR window and the last two
windows do not form a CRLF pair (in both of those cases the loop of the
source exits without ever flushing, which is treated separately). -/
lemma wrun_kept (bom : Bom) :
    ∀ ws : List (List Nat), ws ≠ [] →
      lastIsCR bom ws = false → endsCRLF bom ws = false →
      (∀ pending, wrun bom ws false pending =
        pending ++ (keptWindows bom ws).flatten) ∧
      (∀ pending cr, isByteSequenceCR cr bom = true →
        endsCRLF bom (cr :: ws) = false →
        wrun bom ws true (pending ++ cr) =
          pending ++ (keptWindows bom (cr :: ws)).flatten) := by
  intro ws
  induction ws with
  | nil => intro h; exact absurd rfl h
  | cons win rest ih =>
    intro _ hlast hends
    constructor
    · intro pending
      by_cases hcr : isByteSequenceCR win bom = true
      · have hrestne : rest ≠ [] := by
          intro hx
          subst hx
          simp [lastIsCR, hcr] at hlast
        obtain ⟨hlast', hends'⟩ := cond_tail bom hrestne hlast hends
        rw [wrun]
        simp only [hcr, if_true]
        exact (ih hrestne hlast' hends').2 pending win hcr hends
      · rw [Bool.not_eq_true] at hcr
        rw [wrun]
        simp only [hcr, Bool.false_eq_true, if_false, Bool.false_and]
        cases rest with
        | nil =>
          simp only [List.isEmpty_nil, if_true]
          have hk : keptWindows bom [win] = [win] := by
            rw [keptWindows_cons bom win []]
            simp [nextIsLF, keptWindows]
          rw [hk]
          simp
        | cons b t =>
          simp only [List.isEmpty_cons, Bool.false_eq_true, if_false]
          have hrestne : (b :: t) ≠ [] := by simp
          obtain ⟨hlast', hends'⟩ := cond_tail bom hrestne hlast hends
          rw [(ih hrestne hlast' hends').1 (pending ++ win)]
          have hk : keptWindows bom (win :: b :: t) =
              win :: keptWindows bom (b :: t) := by
            rw [keptWindows_cons bom win (b :: t)]
            simp [hcr]
          rw [hk, List.flatten_cons]
          simp [List.append_assoc]
    · intro pending cr hcrcr hendscr
      by_cases hcr : isByteSequenceCR win bom = true
      · have hrestne : rest ≠ [] := by
          intro hx
          subst hx
          simp [lastIsCR, hcr] at hlast
        obtain ⟨hlast', hends'⟩ := cond_tail bom hrestne hlast hends
        rw [wrun]
        simp only [hcr, if_true]
        have hrec := (ih hrestne hlast' hends').2 (pending ++ cr) win hcr hends
        rw [hrec]
        have hk : keptWindows bom (cr :: win :: rest) =
            cr :: keptWindows bom (win :: rest) := by
          rw [keptWindows_cons bom cr (win :: rest)]
          simp [nextIsLF, isLF_eq_false_of_isCR hcr]
        rw [hk, List.flatten_cons]
        simp [List.append_assoc]
      · rw [Bool.not_eq_true] at hcr
        by_cases hlf : isByteSequenceLF win bom = true
        · have hrestne : rest ≠ [] := by
            intro hx
            subst hx
            rw [endsCRLF_pair] at hendscr
            simp [hcrcr, hlf] at hendscr
          obtain ⟨hlast', hends'⟩ := cond_tail bom hrestne hlast hends
          rw [wrun]
          simp only [hcr, Bool.false_eq_true, if_false, hlf, Bool.true_and,
            if_true]
          have hcrw : cr.length = getBytesPerControlChar bom :=
            length_of_isCR hcrcr
          have htake : (pending ++ cr).take
              ((pending ++ cr).length - getBytesPerControlChar bom) =
              pending := by
            rw [List.length_append, hcrw]
            have harith : pending.length + getBytesPerControlChar bom -
                getBytesPerControlChar bom = pending.length := by omega
            rw [harith]
            exact List.take_left pending cr
          rw [htake]
          rw [(ih hrestne hlast' hends').1 win]
          have hk1 : keptWindows bom (cr :: win :: rest) =
              keptWindows bom (win :: rest) := by
            rw [keptWindows_cons bom cr (win :: rest)]
            simp [nextIsLF, hcrcr, hlf]
          have hk2 : keptWindows bom (win :: rest) =
              win :: keptWindows bom rest := by
            rw [keptWindows_cons bom win rest]
            simp [hcr]
          rw [hk1, hk2, List.flatten_cons]
        · rw [Bool.not_eq_true] at hlf
          rw [wrun]
          simp only [hcr, Bool.false_eq_true, if_false, hlf, Bool.and_false]
          cases rest with
          | nil =>
            simp only [List.isEmpty_nil, if_true]
            have hk1 : keptWindows bom (cr :: [win]) =
                cr :: keptWindows bom [win] := by
              rw [keptWindows_cons bom cr [win]]
              simp [nextIsLF, hlf]
            have hk2 : keptWindows bom [win] = [win] := by
              rw [keptWindows_cons bom win []]
              simp [nextIsLF, keptWindows]
            rw [hk1, hk2]
            simp [List.append_assoc]
          | cons b t =>
            simp only [List.isEmpty_cons, Bool.false_eq_true, if_false]
            have hrestne : (b :: t) ≠ [] := by simp
            obtain ⟨hlast', hends'⟩ := cond_tail bom hrestne hlast hends
            rw [(ih hrestne hlast' hends').1 ((pending ++ cr) ++ win)]
            have hk1 : keptWindows bom (cr :: win :: b :: t) =
                cr :: keptWindows bom (win :: b :: t) := by
              rw [keptWindows_cons bom cr (win :: b :: t)]
              simp [nextIsLF, hlf]
            have hk2 : keptWindows bom (win :: b :: t) =
                win :: keptWindows bom (b :: t) := by
              rw [keptWindows_cons bom win (b :: t)]
              simp [hcr]
            rw [hk1, hk2, List.flatten_cons, List.flatten_cons]
            simp [List.append_assoc]

/-! Length accounting for the kept windows. -/

lemma countCRLF_nil (bom : Bom) : countCRLF bom [] = 0 := rfl

lemma countCRLF_single (bom : Bom) (a : List Nat) :
    countCRLF bom [a] = 0 := rfl

lemma countCRLF_cons_cons (bom : Bom) (a b : List Nat)
    (t : List (List Nat)) :
    countCRLF bom (a :: b :: t) =
      (if isByteSequenceCR a bom && isByteSequenceLF b bom then 1 else 0) +
        countCRLF bom (b :: t) := rfl

lemma kept_flatten_length (bom : Bom) :
    ∀ ws : List (List Nat),
      ((keptWindows bom ws).flatten).length +
          getBytesPerControlChar bom * countCRLF bom ws =
        (ws.flatten).length := by
  intro ws
  induction ws with
  | nil => simp [keptWindows, countCRLF]
  | cons a rest ih =>
    cases rest with
    | nil =>
      have hk : keptWindows bom [a] = [a] := by
        rw [keptWindows_cons bom a []]
        simp [nextIsLF, keptWindows]
      rw [hk, countCRLF_single]
      simp
    | cons b t =>
      rw [keptWindows_cons bom a (b :: t), countCRLF_cons_cons]
      have hnlf : nextIsLF bom (b :: t) = isByteSequenceLF b bom := rfl
      by_cases hc : (isByteSequenceCR a bom && isByteSequenceLF b bom) = true
      · have hcr : isByteSequenceCR a bom = true := (Bool.and_eq_true_iff.mp hc).1
        have ha : a.length = getBytesPerControlChar bom := length_of_isCR hcr
        rw [hnlf, hc]
        simp only [if_true, List.flatten_cons, List.length_append]
        simp only [List.flatten_cons, List.length_append] at ih
        rw [Nat.mul_add, Nat.mul_one]
        omega
      · rw [Bool.not_eq_true] at hc
        rw [hnlf, hc]
        simp only [Bool.false_eq_true, if_false, List.flatten_cons,
          List.length_append, Nat.zero_add]
        simp only [List.flatten_cons, List.length_append] at ih
        omega

/-! Normal forms for the rewriter output. -/

lemma convert_eq_kept (c : List Nat)
    (hple : getBytesPerBom (detectBomFromBuffer (c.take 4)) ≤ c.length)
    (hdvd : getBytesPerControlChar (detectBomFromBuffer (c.take 4)) ∣
      (c.drop (getBytesPerBom (detectBomFromBuffer (c.take 4)))).length) :
    lastIsCR (detectBomFromBuffer (c.take 4))
        (chunks (getBytesPerControlChar (detectBomFromBuffer (c.take 4)))
          (c.drop (getBytesPerBom (detectBomFromBuffer (c.take 4))))) =
        false →
    endsCRLF (detectBomFromBuffer (c.take 4))
        (chunks (getBytesPerControlChar (detectBomFromBuffer (c.take 4)))
          (c.drop (getBytesPerBom (detectBomFromBuffer (c.take 4))))) =
        false →
    c.drop (getBytesPerBom (detectBomFromBuffer (c.take 4))) ≠ [] →
    convertFileFromDosToUnix c =
      c.take (getBytesPerBom (detectBomFromBuffer (c.take 4))) ++
        (keptWindows (detectBomFromBuffer (c.take 4))
          (chunks (getBytesPerControlChar (detectBomFromBuffer (c.take 4)))
            (c.drop
              (getBytesPerBom (detectBomFromBuffer (c.take 4)))))).flatten := by
  intro hlast hends hne
  have hw : 0 < getBytesPerControlChar (detectBomFromBuffer (c.take 4)) :=
    bytesPerControlChar_pos _
  have hpayloadpos :
      0 < (c.drop (getBytesPerBom (detectBomFromBuffer (c.take 4)))).length :=
    List.length_pos.mpr hne
  have hwle : getBytesPerControlChar (detectBomFromBuffer (c.take 4)) ≤
      (c.drop (getBytesPerBom (detectBomFromBuffer (c.take 4)))).length := by
    rcases hdvd with ⟨k, hk⟩
    rcases Nat.eq_zero_or_pos k with rfl | hkpos
    · omega
    · have := Nat.le_mul_of_pos_right
        (getBytesPerControlChar (detectBomFromBuffer (c.take 4))) hkpos
      omega
  have hwsne : chunks (getBytesPerControlChar (detectBomFromBuffer (c.take 4)))
      (c.drop (getBytesPerBom (detectBomFromBuffer (c.take 4)))) ≠ [] := by
    rw [chunks_cons hw hwle]
    simp
  have hdvd' : getBytesPerControlChar (detectBomFromBuffer (c.take 4)) ∣
      c.length - getBytesPerBom (detectBomFromBuffer (c.take 4)) := by
    have : (c.drop (getBytesPerBom (detectBomFromBuffer (c.take 4)))).length =
        c.length - getBytesPerBom (detectBomFromBuffer (c.take 4)) :=
      List.length_drop _ _
    rw [← this]
    exact hdvd
  unfold convertFileFromDosToUnix
  rw [convertLoop_eq_wrun (detectBomFromBuffer (c.take 4)) c c.length
    (getBytesPerBom (detectBomFromBuffer (c.take 4))) 0 false []
    (by omega) (by omega) hple hdvd']
  rw [List.nil_append, bufferSlice_zero_take]
  exact (wrun_kept (detectBomFromBuffer (c.take 4)) _ hwsne hlast hends).1
    (c.take (getBytesPerBom (detectBomFromBuffer (c.take 4))))

lemma specRewrite_eq_kept (c : List Nat)
    (hdvd : getBytesPerControlChar (detectBomFromBuffer (c.take 4)) ∣
      (c.drop (getBytesPerBom (detectBomFromBuffer (c.take 4)))).length) :
    specRewrite c =
      c.take (getBytesPerBom (detectBomFromBuffer (c.take 4))) ++
        (keptWindows (detectBomFromBuffer (c.take 4))
          (chunks (getBytesPerControlChar (detectBomFromBuffer (c.take 4)))
            (c.drop
              (getBytesPerBom (detectBomFromBuffer (c.take 4)))))).flatten := by
  have hw : 0 < getBytesPerControlChar (detectBomFromBuffer (c.take 4)) :=
    bytesPerControlChar_pos _
  simp only [specRewrite]
  rw [chunks_length_mul hw hdvd]
  rw [List.drop_eq_nil_of_le le_rfl]
  rw [List.append_nil]

/-- C1 counterexample: on the input a CR LF (bytes 97 13 10), whose final
window is the LF of a CRLF pair, the rewrite loop of the source exits
without ever calling the final flush, so the written output is just the
first flush 97 — not the spec transform 97 10.  The claim, which asserts
the output equals the input with exactly the CR-before-LF units removed,
is therefore false at this input. -/
theorem C1_counterexample :
    convertFileFromDosToUnix [97, 13, 10] ≠ specRewrite [97, 13, 10] := by
  have h1 : convertFileFromDosToUnix [97, 13, 10] = [97] := by
    simp [convertFileFromDosToUnix, convertLoop, bufferSlice,
      detectBomFromBuffer, getBytesPerBom, isByteSequenceCR, isByteSequenceLF,
      crPattern, lfPattern, getBytesPerControlChar]
  have h2 : specRewrite [97, 13, 10] = [97, 10] := by
    simp [specRewrite, detectBomFromBuffer, getBytesPerBom,
      getBytesPerControlChar, chunks, keptWindows, nextIsLF,
      isByteSequenceCR, isByteSequenceLF, crPattern, lfPattern]
  rw [h1, h2]
  simp

/-- C1 amended: for every input whose payload after the BOM is a nonempty
whole number of control units, whose final control unit is not a CR unit,
and whose final two control units do not form a CRLF pair, the rewrite
output is exactly the input with the CR units immediately followed by an LF
unit removed (BOM and all other bytes preserved, in order), and the output
length equals the input length minus the control-unit width times the
number of CRLF pairs.  (On the excluded inputs the source loop exits
without its final flush and the tail after the last write point is lost —
see the counterexample.) -/
theorem C1_theorem (c : List Nat)
    (hple : getBytesPerBom (detectBomFromBuffer (c.take 4)) ≤ c.length)
    (hdvd : getBytesPerControlChar (detectBomFromBuffer (c.take 4)) ∣
      (c.drop (getBytesPerBom (detectBomFromBuffer (c.take 4)))).length)
    (hne : c.drop (getBytesPerBom (detectBomFromBuffer (c.take 4))) ≠ [])
    (hlast : lastIsCR (detectBomFromBuffer (c.take 4))
      (chunks (getBytesPerControlChar (detectBomFromBuffer (c.take 4)))
        (c.drop (getBytesPerBom (detectBomFromBuffer (c.take 4))))) = false)
    (hends : endsCRLF (detectBomFromBuffer (c.take 4))
      (chunks (getBytesPerControlChar (detectBomFromBuffer (c.take 4)))
        (c.drop (getBytesPerBom (detectBomFromBuffer (c.take 4))))) = false) :
    convertFileFromDosToUnix c = specRewrite c ∧
      (convertFileFromDosToUnix c).length +
          getBytesPerControlChar (detectBomFromBuffer (c.take 4)) *
            countCRLF (detectBomFromBuffer (c.take 4))
              (chunks (getBytesPerControlChar (detectBomFromBuffer (c.take 4)))
                (c.drop (getBytesPerBom (detectBomFromBuffer (c.take 4))))) =
        c.length := by
  have hw : 0 < getBytesPerControlChar (detectBomFromBuffer (c.take 4)) :=
    bytesPerControlChar_pos _
  have hk := convert_eq_kept c hple hdvd hlast hends hne
  have hs := specRewrite_eq_kept c hdvd
  refine ⟨by rw [hk, hs], ?_⟩
  rw [hk, List.length_append]
  have htl : (c.take (getBytesPerBom (detectBomFromBuffer (c.take 4)))).length
      = getBytesPerBom (detectBomFromBuffer (c.take 4)) := by
    rw [List.length_take]
    omega
  have hkl := kept_flatten_length (detectBomFromBuffer (c.take 4))
    (chunks (getBytesPerControlChar (detectBomFromBuffer (c.take 4)))
      (c.drop (getBytesPerBom (detectBomFromBuffer (c.take 4)))))
  rw [chunks_flatten hw hdvd] at hkl
  rw [List.length_drop] at hkl
  omega

/-- Witness for the amended C1 at the content of Scenario A, the bytes of
the text a CR LF b. -/
theorem C1_witness :
    (getBytesPerBom (detectBomFromBuffer ([97, 13, 10, 98].take 4)) ≤
        [97, 13, 10, 98].length ∧
      getBytesPerControlChar (detectBomFromBuffer ([97, 13, 10, 98].take 4)) ∣
        ([97, 13, 10, 98].drop
          (getBytesPerBom (detectBomFromBuffer ([97, 13, 10, 98].take 4)))).length ∧
      [97, 13, 10, 98].drop
        (getBytesPerBom (detectBomFromBuffer ([97, 13, 10, 98].take 4))) ≠ []) ∧
    convertFileFromDosToUnix [97, 13, 10, 98] = specRewrite [97, 13, 10, 98] := by
  have hlast : lastIsCR (detectBomFromBuffer ([97, 13, 10, 98].take 4))
      (chunks (getBytesPerControlChar (detectBomFromBuffer ([97, 13, 10, 98].take 4)))
        ([97, 13, 10, 98].drop
          (getBytesPerBom (detectBomFromBuffer ([97, 13, 10, 98].take 4))))) =
      false := by
    simp [detectBomFromBuffer, getBytesPerBom, getBytesPerControlChar, chunks,
      lastIsCR, isByteSequenceCR, crPattern]
  have hends : endsCRLF (detectBomFromBuffer ([97, 13, 10, 98].take 4))
      (chunks (getBytesPerControlChar (detectBomFromBuffer ([97, 13, 10, 98].take 4)))
        ([97, 13, 10, 98].drop
          (getBytesPerBom (detectBomFromBuffer ([97, 13, 10, 98].take 4))))) =
      false := by
    simp [detectBomFromBuffer, getBytesPerBom, getBytesPerControlChar, chunks,
      endsCRLF, isByteSequenceCR, isByteSequenceLF, crPattern, lfPattern]
  exact ⟨⟨by decide, by decide, by decide⟩,
    (C1_theorem [97, 13, 10, 98] (by decide) (by decide) (by decide)
      hlast hends).1⟩

/-! Kept windows of a CRLF-free window list. -/

lemma keptWindows_of_no_crlf (bom : Bom) :
    ∀ ws : List (List Nat), hasCRLF bom ws = false →
      keptWindows bom ws = ws := by
  intro ws
  induction ws with
  | nil => intro _; rfl
  | cons a rest ih =>
    intro h
    cases rest with
    | nil =>
      rw [keptWindows_cons bom a []]
      simp [nextIsLF, keptWindows]
    | cons b t =>
      have hpair : (isByteSequenceCR a bom && isByteSequenceLF b bom) = false := by
        by_contra hx
        rw [Bool.not_eq_false] at hx
        rw [hasCRLF] at h
        simp [hx] at h
      have htail : hasCRLF bom (b :: t) = false := by
        by_contra hx
        rw [Bool.not_eq_false] at hx
        rw [hasCRLF] at h
        simp [hx] at h
      rw [keptWindows_cons bom a (b :: t)]
      have hnlf : nextIsLF bom (b :: t) = isByteSequenceLF b bom := rfl
      rw [hnlf, hpair]
      simp only [Bool.false_eq_true, if_false]
      rw [ih htail]

lemma hasCRLF_of_endsCRLF (bom : Bom) :
    ∀ ws : List (List Nat), endsCRLF bom ws = true → hasCRLF bom ws = true := by
  intro ws
  induction ws with
  | nil => intro h; simp [endsCRLF] at h
  | cons a rest ih =>
    intro h
    cases rest with
    | nil => simp [endsCRLF] at h
    | cons b t =>
      cases t with
      | nil =>
        rw [endsCRLF_pair] at h
        rw [hasCRLF]
        simp [h]
      | cons d t' =>
        rw [endsCRLF_cons_cons] at h
        have := ih h
        rw [hasCRLF, this]
        simp

/-- C9 counterexample: the content 97 13 (a text byte followed by a lone
trailing CR) is classified `good`, yet the rewrite is not a no-op on it:
the loop of the source sets the CR flag on the final window and exits
without ever flushing, so the file is truncated to the empty output. -/
theorem C9_counterexample :
    determineProcessingStatusOfFile [97, 13] = some Status.good ∧
    convertFileFromDosToUnix [97, 13] ≠ [97, 13] := by
  constructor
  · simp [determineProcessingStatusOfFile, detectBomFromBuffer, getBytesPerBom,
      scan, scanStep, isByteSequenceCR, isByteSequenceLF,
      doesByteSequenceSuggestBinary, crPattern, lfPattern,
      getBytesPerControlChar]
  · have h : convertFileFromDosToUnix [97, 13] = [] := by
      simp [convertFileFromDosToUnix, convertLoop, bufferSlice,
        detectBomFromBuffer, getBytesPerBom, isByteSequenceCR,
        isByteSequenceLF, crPattern, lfPattern, getBytesPerControlChar]
    rw [h]
    simp

/-- C9 amended: for every file classified `good` whose final control unit
is not a CR unit, the rewrite is a no-op: the output equals the input
byte for byte.  (A `good` file ending in a CR unit is instead truncated,
because the source loop only flushes at a final non-CR window — see the
counterexample.) -/
theorem C9_theorem (c : List Nat)
    (h : determineProcessingStatusOfFile c = some Status.good)
    (hlast : lastIsCR (detectBomFromBuffer (c.take 4))
      (chunks (getBytesPerControlChar (detectBomFromBuffer (c.take 4)))
        (c.drop (getBytesPerBom (detectBomFromBuffer (c.take 4))))) = false) :
    convertFileFromDosToUnix c = c := by
  have hw : 0 < getBytesPerControlChar (detectBomFromBuffer (c.take 4)) :=
    bytesPerControlChar_pos _
  have hple := determine_some_inv c Status.good h (by simp)
  rw [determine_eq_scan c hple, scan_eq_scanW] at h
  obtain ⟨hrag, hne, hbinf⟩ :=
    scanW_inv (detectBomFromBuffer (c.take 4)) _ _ _ _ _ h (by simp) (by simp)
  have hdvd : getBytesPerControlChar (detectBomFromBuffer (c.take 4)) ∣
      (c.drop (getBytesPerBom (detectBomFromBuffer (c.take 4)))).length := by
    have hmod : ((c.drop (getBytesPerBom (detectBomFromBuffer (c.take 4)))).length
        % getBytesPerControlChar (detectBomFromBuffer (c.take 4)) != 0) =
        false := hrag
    rw [bne_eq_false_iff_eq] at hmod
    exact Nat.dvd_of_mod_eq_zero hmod
  rw [hrag] at h
  rw [scanW_run (detectBomFromBuffer (c.take 4)) _ _ _ hne hbinf] at h
  have hval := Option.some.inj h
  rw [Bool.false_or, carryCRLF_false_eq_hasCRLF] at hval
  have hcr : hasCRLF (detectBomFromBuffer (c.take 4))
      (chunks (getBytesPerControlChar (detectBomFromBuffer (c.take 4)))
        (c.drop (getBytesPerBom (detectBomFromBuffer (c.take 4))))) = false := by
    by_contra hx
    rw [Bool.not_eq_false] at hx
    rw [hx] at hval
    simp at hval
  have hends : endsCRLF (detectBomFromBuffer (c.take 4))
      (chunks (getBytesPerControlChar (detectBomFromBuffer (c.take 4)))
        (c.drop (getBytesPerBom (detectBomFromBuffer (c.take 4))))) = false := by
    by_contra hx
    rw [Bool.not_eq_false] at hx
    have := hasCRLF_of_endsCRLF (detectBomFromBuffer (c.take 4)) _ hx
    rw [hcr] at this
    exact absurd this (by simp)
  have hpne : c.drop (getBytesPerBom (detectBomFromBuffer (c.take 4))) ≠ [] := by
    intro hx
    rw [hx, chunks_nil] at hne
    exact hne rfl
  have hk := convert_eq_kept c hple hdvd hlast hends hpne
  rw [keptWindows_of_no_crlf _ _ hcr, chunks_flatten hw hdvd] at hk
  rw [hk]
  exact List.take_append_drop _ c

/-- Witness for the amended C9 at the content 97 10 98 (Scenario C, a file
already in Unix form). -/
theorem C9_theorem_witness :
    determineProcessingStatusOfFile [97, 10, 98] = some Status.good ∧
    convertFileFromDosToUnix [97, 10, 98] = [97, 10, 98] := by
  have h : determineProcessingStatusOfFile [97, 10, 98] = some Status.good := by
    simp [determineProcessingStatusOfFile, detectBomFromBuffer, getBytesPerBom,
      scan, scanStep, isByteSequenceCR, isByteSequenceLF,
      doesByteSequenceSuggestBinary, crPattern, lfPattern,
      getBytesPerControlChar]
  have hlast : lastIsCR (detectBomFromBuffer ([97, 10, 98].take 4))
      (chunks (getBytesPerControlChar (detectBomFromBuffer ([97, 10, 98].take 4)))
        ([97, 10, 98].drop
          (getBytesPerBom (detectBomFromBuffer ([97, 10, 98].take 4))))) =
      false := by
    simp [detectBomFromBuffer, getBytesPerBom, getBytesPerControlChar, chunks,
      lastIsCR, isByteSequenceCR, crPattern]
  exact ⟨h, C9_theorem [97, 10, 98] h hlast⟩

/-! Inversion and construction lemmas for BOM detection. -/

lemma detect_inv_utf32be {buf : List Nat}
    (h : detectBomFromBuffer buf = Bom.utf32be) :
    buf.take 4 = [0, 0, 0xFE, 0xFF] := by
  unfold detectBomFromBuffer at h
  split_ifs at h with h1 h2 h3 h4 h5 <;> simp_all [beq_iff_eq]

lemma detect_inv_utf32le {buf : List Nat}
    (h : detectBomFromBuffer buf = Bom.utf32le) :
    buf.take 4 = [0xFF, 0xFE, 0, 0] := by
  unfold detectBomFromBuffer at h
  split_ifs at h with h1 h2 h3 h4 h5 <;> simp_all [beq_iff_eq]

lemma detect_inv_utf8 {buf : List Nat}
    (h : detectBomFromBuffer buf = Bom.utf8) :
    buf.take 3 = [0xEF, 0xBB, 0xBF] := by
  unfold detectBomFromBuffer at h
  split_ifs at h with h1 h2 h3 h4 h5 <;> simp_all [beq_iff_eq]

lemma detect_inv_utf16be {buf : List Nat}
    (h : detectBomFromBuffer buf = Bom.utf16be) :
    buf.take 2 = [0xFE, 0xFF] := by
  unfold detectBomFromBuffer at h
  split_ifs at h with h1 h2 h3 h4 h5 <;> simp_all [beq_iff_eq]

lemma detect_inv_utf16le {buf : List Nat}
    (h : detectBomFromBuffer buf = Bom.utf16le) :
    buf.take 2 = [0xFF, 0xFE] ∧ buf.take 4 ≠ [0xFF, 0xFE, 0, 0] := by
  unfold detectBomFromBuffer at h
  split_ifs at h with h1 h2 h3 h4 h5 <;> simp_all [beq_iff_eq]

lemma detect_inv_none {buf : List Nat}
    (h : detectBomFromBuffer buf = Bom.none) :
    buf.take 4 ≠ [0, 0, 0xFE, 0xFF] ∧ buf.take 4 ≠ [0xFF, 0xFE, 0, 0] ∧
      buf.take 3 ≠ [0xEF, 0xBB, 0xBF] ∧ buf.take 2 ≠ [0xFE, 0xFF] ∧
      buf.take 2 ≠ [0xFF, 0xFE] := by
  unfold detectBomFromBuffer at h
  split_ifs at h with h1 h2 h3 h4 h5 <;> simp_all [beq_iff_eq]

lemma detect_of_none {buf : List Nat}
    (h1 : buf.take 4 ≠ [0, 0, 0xFE, 0xFF])
    (h2 : buf.take 4 ≠ [0xFF, 0xFE, 0, 0])
    (h3 : buf.take 3 ≠ [0xEF, 0xBB, 0xBF])
    (h4 : buf.take 2 ≠ [0xFE, 0xFF])
    (h5 : buf.take 2 ≠ [0xFF, 0xFE]) :
    detectBomFromBuffer buf = Bom.none := by
  unfold detectBomFromBuffer
  rw [if_neg (by simpa using h1), if_neg (by simpa using h2),
    if_neg (by simpa using h3), if_neg (by simpa using h4),
    if_neg (by simpa using h5)]

lemma take_prefix_of_take {buf : List Nat} {m n : Nat} (hmn : m ≤ n) :
    (buf.take n).take m = buf.take m := by
  rw [List.take_take]
  congr 1
  omega

lemma detect_of_utf8 {buf : List Nat}
    (h : buf.take 3 = [0xEF, 0xBB, 0xBF]) :
    detectBomFromBuffer buf = Bom.utf8 := by
  have hne4 : ∀ sig : List Nat, sig.take 3 ≠ [0xEF, 0xBB, 0xBF] →
      buf.take 4 ≠ sig := by
    intro sig hsig hx
    apply hsig
    rw [← hx, take_prefix_of_take (by omega), h]
  unfold detectBomFromBuffer
  rw [if_neg (by simpa using hne4 [0, 0, 0xFE, 0xFF] (by decide)),
    if_neg (by simpa using hne4 [0xFF, 0xFE, 0, 0] (by decide)),
    if_pos (by simpa using h)]

lemma detect_of_utf16be {buf : List Nat}
    (h : buf.take 2 = [0xFE, 0xFF]) :
    detectBomFromBuffer buf = Bom.utf16be := by
  have hne4 : ∀ sig : List Nat, sig.take 2 ≠ [0xFE, 0xFF] →
      buf.take 4 ≠ sig := by
    intro sig hsig hx
    apply hsig
    rw [← hx, take_prefix_of_take (by omega), h]
  have hne3 : ∀ sig : List Nat, sig.take 2 ≠ [0xFE, 0xFF] →
      buf.take 3 ≠ sig := by
    intro sig hsig hx
    apply hsig
    rw [← hx, take_prefix_of_take (by omega), h]
  unfold detectBomFromBuffer
  rw [if_neg (by simpa using hne4 [0, 0, 0xFE, 0xFF] (by decide)),
    if_neg (by simpa using hne4 [0xFF, 0xFE, 0, 0] (by decide)),
    if_neg (by simpa using hne3 [0xEF, 0xBB, 0xBF] (by decide)),
    if_pos (by simpa using h)]

lemma detect_of_utf16le {buf : List Nat}
    (h : buf.take 2 = [0xFF, 0xFE])
    (h4 : buf.take 4 ≠ [0xFF, 0xFE, 0, 0]) :
    detectBomFromBuffer buf = Bom.utf16le := by
  have hne4 : ∀ sig : List Nat, sig.take 2 ≠ [0xFF, 0xFE] →
      buf.take 4 ≠ sig := by
    intro sig hsig hx
    apply hsig
    rw [← hx, take_prefix_of_take (by omega), h]
  have hne3 : ∀ sig : List Nat, sig.take 2 ≠ [0xFF, 0xFE] →
      buf.take 3 ≠ sig := by
    intro sig hsig hx
    apply hsig
    rw [← hx, take_prefix_of_take (by omega), h]
  have hne2 : ∀ sig : List Nat, sig.take 2 ≠ [0xFF, 0xFE] →
      buf.take 2 ≠ sig := by
    intro sig hsig hx
    apply hsig
    rw [← hx, take_prefix_of_take (by omega), h]
  unfold detectBomFromBuffer
  rw [if_neg (by simpa using hne4 [0, 0, 0xFE, 0xFF] (by decide)),
    if_neg (by simpa using h4),
    if_neg (by simpa using hne3 [0xEF, 0xBB, 0xBF] (by decide)),
    if_neg (by simpa using hne2 [0xFE, 0xFF] (by decide)),
    if_pos (by simpa using h)]

/-! Structural facts about kept windows. -/

lemma mem_keptWindows (bom : Bom) :
    ∀ (ws : List (List Nat)) (x : List Nat),
      x ∈ keptWindows bom ws → x ∈ ws := by
  intro ws
  induction ws with
  | nil => intro x hx; simp [keptWindows] at hx
  | cons a rest ih =>
    intro x hx
    rw [keptWindows_cons] at hx
    by_cases hd : (isByteSequenceCR a bom && nextIsLF bom rest) = true
    · rw [hd] at hx
      simp only [if_true] at hx
      exact List.mem_cons.mpr (Or.inr (ih x hx))
    · rw [Bool.not_eq_true] at hd
      rw [hd] at hx
      simp only [Bool.false_eq_true, if_false] at hx
      rcases List.mem_cons.mp hx with rfl | hx2
      · simp
      · exact List.mem_cons.mpr (Or.inr (ih x hx2))

lemma keptWindows_ne_nil (bom : Bom) :
    ∀ ws : List (List Nat), ws ≠ [] → keptWindows bom ws ≠ [] := by
  intro ws
  induction ws with
  | nil => intro h; exact absurd rfl h
  | cons a rest ih =>
    intro _
    rw [keptWindows_cons]
    by_cases hd : (isByteSequenceCR a bom && nextIsLF bom rest) = true
    · rw [hd]
      simp only [if_true]
      have hrne : rest ≠ [] := by
        intro hx
        subst hx
        simp [nextIsLF] at hd
      exact ih hrne
    · rw [Bool.not_eq_true] at hd
      rw [hd]
      simp

lemma hasCRLF_cons (bom : Bom) (a : List Nat) (rest : List (List Nat)) :
    hasCRLF bom (a :: rest) =
      ((isByteSequenceCR a bom && nextIsLF bom rest) || hasCRLF bom rest) := by
  cases rest with
  | nil => simp [hasCRLF, nextIsLF]
  | cons b t => simp [hasCRLF, nextIsLF]

lemma hasCRCRLF_cons (bom : Bom) (a : List Nat) (rest : List (List Nat)) :
    hasCRCRLF bom (a :: rest) =
      ((isByteSequenceCR a bom && startsCRLF bom rest) ||
        hasCRCRLF bom rest) := by
  cases rest with
  | nil => simp [hasCRCRLF, startsCRLF]
  | cons b t =>
    cases t with
    | nil => simp [hasCRCRLF, startsCRLF, nextIsLF]
    | cons d t' => simp [hasCRCRLF, startsCRLF, nextIsLF, Bool.and_assoc]

/-- Removing the CR units of the CRLF pairs cannot create a new CRLF pair
among the kept windows, provided the original window list contains no
CR CR LF triple (in that triple the middle CR is removed and the first CR
becomes adjacent to the LF). -/
lemma kept_no_crlf (bom : Bom) :
    ∀ ws : List (List Nat), hasCRCRLF bom ws = false →
      hasCRLF bom (keptWindows bom ws) = false := by
  intro ws
  induction ws with
  | nil => intro _; rfl
  | cons a rest ih =>
    intro h
    rw [hasCRCRLF_cons] at h
    obtain ⟨h1, h2⟩ := Bool.or_eq_false_iff.mp h
    rw [keptWindows_cons]
    by_cases hd : (isByteSequenceCR a bom && nextIsLF bom rest) = true
    · rw [hd]
      simp only [if_true]
      exact ih h2
    · rw [Bool.not_eq_true] at hd
      rw [hd]
      simp only [Bool.false_eq_true, if_false]
      rw [hasCRLF_cons, ih h2, Bool.or_false]
      by_cases hcra : isByteSequenceCR a bom = true
      · have hnlfr : nextIsLF bom rest = false := by
          by_contra hx
          rw [Bool.not_eq_false] at hx
          rw [hcra, hx] at hd
          simp at hd
        cases rest with
        | nil => simp [keptWindows, nextIsLF]
        | cons b t =>
          have hlfb : isByteSequenceLF b bom = false := hnlfr
          rw [keptWindows_cons bom b t]
          by_cases hdb : (isByteSequenceCR b bom && nextIsLF bom t) = true
          · exfalso
            have hst : startsCRLF bom (b :: t) = true := hdb
            rw [hcra, hst] at h1
            simp at h1
          · rw [Bool.not_eq_true] at hdb
            rw [hdb]
            simp only [Bool.false_eq_true, if_false]
            simp [nextIsLF, hlfb]
      · rw [Bool.not_eq_true] at hcra
        simp [hcra]

lemma flatten_length_of_all {w : Nat} :
    ∀ L : List (List Nat), (∀ win ∈ L, win.length = w) →
      L.flatten.length = w * L.length := by
  intro L
  induction L with
  | nil => intro _; simp
  | cons a rest ih =>
    intro h
    rw [List.flatten_cons, List.length_append, h a (by simp),
      ih (fun x hx => h x (by simp [hx]))]
    simp [Nat.mul_succ]
    omega

/-- Transfer of a short prefix through the kept-window flattening, for the
1-byte control units of the no-BOM case: a prefix of the rewritten bytes
that contains no LF byte is also a prefix of the original bytes (the only
bytes the rewrite removes are CR bytes that sit immediately before an LF,
so the byte following any removed byte in the output is an LF). -/
lemma kept_flatten_take_none (s : List Nat) (hs10 : ∀ x ∈ s, x ≠ 10) :
    ∀ ws : List (List Nat), (∀ win ∈ ws, win.length = 1) →
      ((keptWindows Bom.none ws).flatten).take s.length = s →
      (ws.flatten).take s.length = s := by
  induction s with
  | nil => intro ws _ _; simp
  | cons y s' ihs =>
    intro ws
    induction ws with
    | nil =>
      intro _ h
      simp [keptWindows] at h
    | cons a rest ihw =>
      intro hlen h
      obtain ⟨x, hx⟩ := List.length_eq_one.mp (hlen a (by simp))
      subst hx
      rw [keptWindows_cons] at h
      by_cases hd : (isByteSequenceCR [x] Bom.none && nextIsLF Bom.none rest) = true
      · exfalso
        obtain ⟨hxcr, hnlf⟩ := Bool.and_eq_true_iff.mp hd
        have hx13 : x = 13 := by
          have := eq_crPattern_of_isCR hxcr
          simpa [crPattern] using this
        cases rest with
        | nil => simp [nextIsLF] at hnlf
        | cons b t =>
          obtain ⟨z, hz⟩ := List.length_eq_one.mp (hlen b (by simp))
          subst hz
          have hz10 : z = 10 := by
            have : isByteSequenceLF [z] Bom.none = true := hnlf
            have := eq_lfPattern_of_isLF this
            simpa [lfPattern] using this
          subst hz10
          rw [hd] at h
          simp only [if_true] at h
          rw [keptWindows_cons Bom.none [10] t] at h
          have hne10cr : (isByteSequenceCR [10] Bom.none &&
              nextIsLF Bom.none t) = false := by
            simp [isByteSequenceCR, crPattern]
          rw [hne10cr] at h
          simp only [Bool.false_eq_true, if_false, List.flatten_cons] at h
          have hyz : y = 10 := by
            have := congrArg (fun l => l.head?) h
            simpa using this.symm
          exact hs10 y (by simp) hyz
      · rw [Bool.not_eq_true] at hd
        rw [hd] at h
        simp only [Bool.false_eq_true, if_false, List.flatten_cons] at h
        have hxy : x = y ∧ ((keptWindows Bom.none rest).flatten).take s'.length
            = s' := by
          have hcons : ([x] ++ (keptWindows Bom.none rest).flatten).take
              (s'.length + 1) = y :: s' := by simpa using h
          rw [List.singleton_append] at hcons
          rw [List.take_succ_cons] at hcons
          exact ⟨(List.cons.injEq _ _ _ _).mp hcons |>.1,
            (List.cons.injEq _ _ _ _).mp hcons |>.2⟩
        obtain ⟨rfl, htail⟩ := hxy
        have hrest := ihs (fun z hz => hs10 z (by simp [hz])) rest
          (fun win hw => hlen win (by simp [hw])) htail
        rw [List.flatten_cons, List.singleton_append]
        simp only [List.length_cons, List.take_succ_cons]
        rw [hrest]

/-- The rewrite output of a fully scanned non-binary file detects the same
BOM as the input: the BOM bytes are preserved verbatim, a UTF-16 LE
detection cannot be upgraded to UTF-32 LE because an all-zero first payload
unit would have been flagged binary, and in the no-BOM case the rewrite
cannot create a BOM signature because a removed CR byte is always followed
in the output by an LF byte, which occurs in no signature. -/
lemma detect_preserved (c : List Nat)
    (hple : getBytesPerBom (detectBomFromBuffer (c.take 4)) ≤ c.length)
    (hdvd : getBytesPerControlChar (detectBomFromBuffer (c.take 4)) ∣
      (c.drop (getBytesPerBom (detectBomFromBuffer (c.take 4)))).length)
    (hne : c.drop (getBytesPerBom (detectBomFromBuffer (c.take 4))) ≠ [])
    (hbinf : ∀ win ∈ chunks (getBytesPerControlChar (detectBomFromBuffer (c.take 4)))
        (c.drop (getBytesPerBom (detectBomFromBuffer (c.take 4)))),
      doesByteSequenceSuggestBinary win (detectBomFromBuffer (c.take 4)) = false) :
    detectBomFromBuffer
        ((c.take (getBytesPerBom (detectBomFromBuffer (c.take 4))) ++
          (keptWindows (detectBomFromBuffer (c.take 4))
            (chunks (getBytesPerControlChar (detectBomFromBuffer (c.take 4)))
              (c.drop (getBytesPerBom (detectBomFromBuffer (c.take 4)))))).flatten).take 4) =
      detectBomFromBuffer (c.take 4) := by
  have hw : 0 < getBytesPerControlChar (detectBomFromBuffer (c.take 4)) :=
    bytesPerControlChar_pos _
  have hwle : getBytesPerControlChar (detectBomFromBuffer (c.take 4)) ≤
      (c.drop (getBytesPerBom (detectBomFromBuffer (c.take 4)))).length := by
    rcases hdvd with ⟨k, hk⟩
    have hppos : 0 < (c.drop (getBytesPerBom (detectBomFromBuffer (c.take 4)))).length :=
      List.length_pos.mpr hne
    rcases Nat.eq_zero_or_pos k with rfl | hkpos
    · omega
    · have := Nat.le_mul_of_pos_right
        (getBytesPerControlChar (detectBomFromBuffer (c.take 4))) hkpos
      omega
  have hwsne : chunks (getBytesPerControlChar (detectBomFromBuffer (c.take 4)))
      (c.drop (getBytesPerBom (detectBomFromBuffer (c.take 4)))) ≠ [] := by
    rw [chunks_cons hw hwle]
    simp
  have hkne := keptWindows_ne_nil (detectBomFromBuffer (c.take 4)) _ hwsne
  have hwlen : ∀ win ∈ keptWindows (detectBomFromBuffer (c.take 4))
      (chunks (getBytesPerControlChar (detectBomFromBuffer (c.take 4)))
        (c.drop (getBytesPerBom (detectBomFromBuffer (c.take 4))))),
      win.length = getBytesPerControlChar (detectBomFromBuffer (c.take 4)) :=
    fun win hwin => length_of_mem_chunks (mem_keptWindows _ _ _ hwin)
  cases hbomeq : detectBomFromBuffer (c.take 4) with
  | utf32be =>
    rw [hbomeq] at hple hdvd hne hbinf hwlen hkne
    simp only [getBytesPerBom] at hple ⊢
    have htl : (c.take 4).length = 4 := by
      rw [List.length_take]
      omega
    rw [List.take_left' htl]
    exact hbomeq
  | utf32le =>
    rw [hbomeq] at hple hdvd hne hbinf hwlen hkne
    simp only [getBytesPerBom] at hple ⊢
    have htl : (c.take 4).length = 4 := by
      rw [List.length_take]
      omega
    rw [List.take_left' htl]
    exact hbomeq
  | utf8 =>
    rw [hbomeq] at hple hdvd hne hbinf hwlen hkne
    simp only [getBytesPerBom] at hple ⊢
    have hsig : c.take 3 = [0xEF, 0xBB, 0xBF] := by
      have := detect_inv_utf8 hbomeq
      rwa [take_prefix_of_take (by omega)] at this
    have htl : (c.take 3).length = 3 := by
      rw [List.length_take]
      omega
    apply detect_of_utf8
    rw [take_prefix_of_take (by omega)]
    calc (c.take 3 ++ (keptWindows Bom.utf8
          (chunks (getBytesPerControlChar Bom.utf8) (c.drop 3))).flatten).take 3
        = c.take 3 := List.take_left' htl
      _ = [0xEF, 0xBB, 0xBF] := hsig
  | utf16be =>
    rw [hbomeq] at hple hdvd hne hbinf hwlen hkne
    simp only [getBytesPerBom] at hple ⊢
    have hsig : c.take 2 = [0xFE, 0xFF] := by
      have := detect_inv_utf16be hbomeq
      rwa [take_prefix_of_take (by omega)] at this
    have htl : (c.take 2).length = 2 := by
      rw [List.length_take]
      omega
    apply detect_of_utf16be
    rw [take_prefix_of_take (by omega)]
    calc (c.take 2 ++ (keptWindows Bom.utf16be
          (chunks (getBytesPerControlChar Bom.utf16be) (c.drop 2))).flatten).take 2
        = c.take 2 := List.take_left' htl
      _ = [0xFE, 0xFF] := hsig
  | utf16le =>
    rw [hbomeq] at hple hdvd hne hbinf hwlen hkne
    simp only [getBytesPerBom, getBytesPerControlChar] at hple hdvd hne hbinf hwlen hkne ⊢
    have hsig : c.take 2 = [0xFF, 0xFE] := by
      have := (detect_inv_utf16le hbomeq).1
      rwa [take_prefix_of_take (by omega)] at this
    have htl : (c.take 2).length = 2 := by
      rw [List.length_take]
      omega
    obtain ⟨k0, krest, hkk⟩ :
        ∃ k0 krest, keptWindows Bom.utf16le (chunks 2 (c.drop 2)) =
          k0 :: krest := by
      cases hkw : keptWindows Bom.utf16le (chunks 2 (c.drop 2)) with
      | nil => exact absurd hkw hkne
      | cons k0 krest => exact ⟨k0, krest, rfl⟩
    have hk0len : k0.length = 2 := by
      have := hwlen k0 (by rw [hkk]; simp)
      simpa using this
    have hk0mem : k0 ∈ chunks 2 (c.drop 2) :=
      mem_keptWindows _ _ _ (by rw [hkk]; simp)
    have hk0bin := hbinf k0 hk0mem
    have houtfour : (c.take 2 ++ (keptWindows Bom.utf16le
        (chunks 2 (c.drop 2))).flatten).take 4 = c.take 2 ++ k0 := by
      rw [hkk, List.flatten_cons]
      have h4 : 4 = (c.take 2).length + 2 := by omega
      rw [h4, List.take_append]
      congr 1
      exact List.take_left' hk0len
    refine detect_of_utf16le ?_ ?_
    · rw [take_prefix_of_take (by omega)]
      calc (c.take 2 ++ (keptWindows Bom.utf16le
            (chunks 2 (c.drop 2))).flatten).take 2
          = c.take 2 := List.take_left' htl
        _ = [0xFF, 0xFE] := hsig
    · rw [take_prefix_of_take le_rfl, houtfour]
      intro hx
      have hk00 : k0 = [0, 0] := by
        have hdx := congrArg (List.drop 2) hx
        rw [List.drop_left' htl] at hdx
        simpa using hdx
      rw [hk00] at hk0bin
      simp [doesByteSequenceSuggestBinary, getBytesPerControlChar] at hk0bin
  | none =>
    rw [hbomeq] at hple hdvd hne hbinf hwlen hkne
    simp only [getBytesPerBom, getBytesPerControlChar] at hdvd hne hbinf hwlen hkne ⊢
    simp only [List.take_zero, List.drop_zero, List.nil_append] at hbinf hwlen hkne hne ⊢
    have hflat : (chunks 1 c).flatten = c := chunks_flatten (by omega) (one_dvd _)
    have hlens : ∀ win ∈ chunks 1 c, win.length = 1 :=
      fun win h => length_of_mem_chunks h
    have hinv := detect_inv_none hbomeq
    have hc4 : c.take 4 ≠ [0, 0, 0xFE, 0xFF] := by
      rw [← take_prefix_of_take (le_refl 4)]
      exact hinv.1
    have hc4' : c.take 4 ≠ [0xFF, 0xFE, 0, 0] := by
      rw [← take_prefix_of_take (le_refl 4)]
      exact hinv.2.1
    have hc3 : c.take 3 ≠ [0xEF, 0xBB, 0xBF] := by
      rw [← take_prefix_of_take (show 3 ≤ 4 by omega)]
      exact hinv.2.2.1
    have hc2 : c.take 2 ≠ [0xFE, 0xFF] := by
      rw [← take_prefix_of_take (show 2 ≤ 4 by omega)]
      exact hinv.2.2.2.1
    have hc2' : c.take 2 ≠ [0xFF, 0xFE] := by
      rw [← take_prefix_of_take (show 2 ≤ 4 by omega)]
      exact hinv.2.2.2.2
    have hzero : ∀ sig : List Nat, (0 : Nat) ∈ sig →
        (keptWindows Bom.none (chunks 1 c)).flatten.take 4 ≠ sig := by
      intro sig h0sig hx
      have h0mem : (0 : Nat) ∈ (keptWindows Bom.none (chunks 1 c)).flatten := by
        apply List.mem_of_mem_take (n := 4)
        rw [hx]
        exact h0sig
      obtain ⟨win, hwmem, h0win⟩ := List.mem_flatten.mp h0mem
      have hwin1 : win.length = 1 := hwlen win hwmem
      obtain ⟨x, rfl⟩ := List.length_eq_one.mp hwin1
      have hx0 : x = 0 := by
        have := h0win
        simp at this
        omega
      subst hx0
      have hb := hbinf [0] (mem_keptWindows _ _ _ hwmem)
      simp [doesByteSequenceSuggestBinary, getBytesPerControlChar] at hb
    have htransfer : ∀ sig : List Nat, (∀ x ∈ sig, x ≠ 10) →
        (keptWindows Bom.none (chunks 1 c)).flatten.take sig.length = sig →
        c.take sig.length = sig := by
      intro sig hsig hx
      have := kept_flatten_take_none sig hsig (chunks 1 c) hlens hx
      rwa [hflat] at this
    apply detect_of_none
    · rw [take_prefix_of_take (le_refl 4)]
      exact hzero [0, 0, 0xFE, 0xFF] (by simp)
    · rw [take_prefix_of_take (le_refl 4)]
      exact hzero [0xFF, 0xFE, 0, 0] (by simp)
    · rw [take_prefix_of_take (show 3 ≤ 4 by omega)]
      intro hx
      exact hc3 (htransfer [0xEF, 0xBB, 0xBF] (by decide) hx)
    · rw [take_prefix_of_take (show 2 ≤ 4 by omega)]
      intro hx
      exact hc2 (htransfer [0xFE, 0xFF] (by decide) hx)
    · rw [take_prefix_of_take (show 2 ≤ 4 by omega)]
      intro hx
      exact hc2' (htransfer [0xFF, 0xFE] (by decide) hx)

/-- C3 counterexample: the content 13 13 10 120 (CR CR LF x) is classified
`bad`, and the rewrite drops only the second CR (the one immediately before
the LF), producing 13 10 120 — in which the surviving lone CR is now
immediately before the LF, so re-classification yields `bad` again, not
`good`. -/
theorem C3_counterexample :
    determineProcessingStatusOfFile [13, 13, 10, 120] = some Status.bad ∧
    determineProcessingStatusOfFile
      (convertFileFromDosToUnix [13, 13, 10, 120]) ≠ some Status.good := by
  have hc : convertFileFromDosToUnix [13, 13, 10, 120] = [13, 10, 120] := by
    simp [convertFileFromDosToUnix, convertLoop, bufferSlice,
      detectBomFromBuffer, getBytesPerBom, isByteSequenceCR, isByteSequenceLF,
      crPattern, lfPattern, getBytesPerControlChar]
  constructor
  · simp [determineProcessingStatusOfFile, detectBomFromBuffer, getBytesPerBom,
      scan, scanStep, isByteSequenceCR, isByteSequenceLF,
      doesByteSequenceSuggestBinary, crPattern, lfPattern,
      getBytesPerControlChar]
  · rw [hc]
    have hb : determineProcessingStatusOfFile [13, 10, 120] =
        some Status.bad := by
      simp [determineProcessingStatusOfFile, detectBomFromBuffer,
        getBytesPerBom, scan, scanStep, isByteSequenceCR, isByteSequenceLF,
        doesByteSequenceSuggestBinary, crPattern, lfPattern,
        getBytesPerControlChar]
    rw [hb]
    simp

/-- C3 amended: rewriting a file classified `bad` and re-classifying the
result yields `good`, provided additionally that the window list contains
no CR CR LF triple (dropping the middle CR of such a triple leaves a new
CRLF pair), that its final window is not a CR window, and that its final
two windows are not a CRLF pair (in those final-window cases the rewrite
loop of the source never flushes its tail, and the truncated output can
even be empty, on which classification never completes). -/
theorem C3_theorem (c : List Nat)
    (h : determineProcessingStatusOfFile c = some Status.bad)
    (hlast : lastIsCR (detectBomFromBuffer (c.take 4))
      (chunks (getBytesPerControlChar (detectBomFromBuffer (c.take 4)))
        (c.drop (getBytesPerBom (detectBomFromBuffer (c.take 4))))) = false)
    (hends : endsCRLF (detectBomFromBuffer (c.take 4))
      (chunks (getBytesPerControlChar (detectBomFromBuffer (c.take 4)))
        (c.drop (getBytesPerBom (detectBomFromBuffer (c.take 4))))) = false)
    (htriple : hasCRCRLF (detectBomFromBuffer (c.take 4))
      (chunks (getBytesPerControlChar (detectBomFromBuffer (c.take 4)))
        (c.drop (getBytesPerBom (detectBomFromBuffer (c.take 4))))) = false) :
    determineProcessingStatusOfFile (convertFileFromDosToUnix c) =
      some Status.good := by
  have hw : 0 < getBytesPerControlChar (detectBomFromBuffer (c.take 4)) :=
    bytesPerControlChar_pos _
  have hple := determine_some_inv c Status.bad h (by simp)
  rw [determine_eq_scan c hple, scan_eq_scanW] at h
  obtain ⟨hrag, hwsne, hbinf⟩ :=
    scanW_inv (detectBomFromBuffer (c.take 4)) _ _ _ _ _ h (by simp) (by simp)
  have hdvd : getBytesPerControlChar (detectBomFromBuffer (c.take 4)) ∣
      (c.drop (getBytesPerBom (detectBomFromBuffer (c.take 4)))).length := by
    have hmod := hrag
    rw [bne_eq_false_iff_eq] at hmod
    exact Nat.dvd_of_mod_eq_zero hmod
  have hpne : c.drop (getBytesPerBom (detectBomFromBuffer (c.take 4))) ≠ [] := by
    intro hx
    rw [hx, chunks_nil] at hwsne
    exact hwsne rfl
  have hconv := convert_eq_kept c hple hdvd hlast hends hpne
  have hdet := detect_preserved c hple hdvd hpne hbinf
  have hkne := keptWindows_ne_nil (detectBomFromBuffer (c.take 4)) _ hwsne
  have hwlen : ∀ win ∈ keptWindows (detectBomFromBuffer (c.take 4))
      (chunks (getBytesPerControlChar (detectBomFromBuffer (c.take 4)))
        (c.drop (getBytesPerBom (detectBomFromBuffer (c.take 4))))),
      win.length = getBytesPerControlChar (detectBomFromBuffer (c.take 4)) :=
    fun win hwin => length_of_mem_chunks (mem_keptWindows _ _ _ hwin)
  have hkfllen : (keptWindows (detectBomFromBuffer (c.take 4))
      (chunks (getBytesPerControlChar (detectBomFromBuffer (c.take 4)))
        (c.drop (getBytesPerBom (detectBomFromBuffer (c.take 4)))))).flatten.length =
      getBytesPerControlChar (detectBomFromBuffer (c.take 4)) *
        (keptWindows (detectBomFromBuffer (c.take 4))
          (chunks (getBytesPerControlChar (detectBomFromBuffer (c.take 4)))
            (c.drop (getBytesPerBom (detectBomFromBuffer (c.take 4)))))).length :=
    flatten_length_of_all _ hwlen
  have htlpb : (c.take (getBytesPerBom (detectBomFromBuffer (c.take 4)))).length
      = getBytesPerBom (detectBomFromBuffer (c.take 4)) := by
    rw [List.length_take]
    omega
  rw [hconv]
  have hple' : getBytesPerBom (detectBomFromBuffer
      ((c.take (getBytesPerBom (detectBomFromBuffer (c.take 4))) ++
        (keptWindows (detectBomFromBuffer (c.take 4))
          (chunks (getBytesPerControlChar (detectBomFromBuffer (c.take 4)))
            (c.drop (getBytesPerBom (detectBomFromBuffer (c.take 4)))))).flatten).take 4)) ≤
      (c.take (getBytesPerBom (detectBomFromBuffer (c.take 4))) ++
        (keptWindows (detectBomFromBuffer (c.take 4))
          (chunks (getBytesPerControlChar (detectBomFromBuffer (c.take 4)))
            (c.drop (getBytesPerBom (detectBomFromBuffer (c.take 4)))))).flatten).length := by
    rw [hdet, List.length_append, htlpb]
    omega
  rw [determine_eq_scan _ hple', hdet]
  rw [List.drop_left' htlpb]
  rw [scan_eq_scanW]
  rw [chunks_of_flatten hw hwlen]
  have hragout : ((keptWindows (detectBomFromBuffer (c.take 4))
      (chunks (getBytesPerControlChar (detectBomFromBuffer (c.take 4)))
        (c.drop (getBytesPerBom (detectBomFromBuffer (c.take 4)))))).flatten.length %
      getBytesPerControlChar (detectBomFromBuffer (c.take 4)) != 0) = false := by
    rw [hkfllen]
    simp [Nat.mul_mod_right]
  rw [hragout]
  rw [scanW_run (detectBomFromBuffer (c.take 4)) _ _ _ hkne
    (fun win hwin => hbinf win (mem_keptWindows _ _ _ hwin))]
  rw [Bool.false_or, carryCRLF_false_eq_hasCRLF,
    kept_no_crlf (detectBomFromBuffer (c.take 4)) _ htriple]
  simp

/-- Witness for the amended C3 at the content of Scenario A, the bytes of
the text a CR LF b. -/
theorem C3_theorem_witness :
    determineProcessingStatusOfFile [97, 13, 10, 98] = some Status.bad ∧
    determineProcessingStatusOfFile
      (convertFileFromDosToUnix [97, 13, 10, 98]) = some Status.good := by
  have h : determineProcessingStatusOfFile [97, 13, 10, 98] =
      some Status.bad := by
    simp [determineProcessingStatusOfFile, detectBomFromBuffer, getBytesPerBom,
      scan, scanStep, isByteSequenceCR, isByteSequenceLF,
      doesByteSequenceSuggestBinary, crPattern, lfPattern,
      getBytesPerControlChar]
  refine ⟨h, C3_theorem [97, 13, 10, 98] h ?_ ?_ ?_⟩
  · simp [detectBomFromBuffer, getBytesPerBom, getBytesPerControlChar, chunks,
      lastIsCR, isByteSequenceCR, crPattern]
  · simp [detectBomFromBuffer, getBytesPerBom, getBytesPerControlChar, chunks,
      endsCRLF, isByteSequenceCR, isByteSequenceLF, crPattern, lfPattern]
  · simp [detectBomFromBuffer, getBytesPerBom, getBytesPerControlChar, chunks,
      hasCRCRLF, isByteSequenceCR, isByteSequenceLF, crPattern, lfPattern]

/-- C4: evaluating the classifier at the failing inputs of the claim — the
empty file, and a BOM-only file (0 payload bytes after the BOM).  In both
cases the first payload read returns 0 bytes, for which the source's
`readCallback` has no branch (its branches cover `bytesRead ===
bytesPerControlChar` and `bytesRead > 0` only), so `done` is never invoked
and the classification never completes (`Option.none`), instead of
completing with `good` as the claim states. -/
theorem C4_empty_never_completes :
    determineProcessingStatusOfFile [] = Option.none ∧
    determineProcessingStatusOfFile [0xEF, 0xBB, 0xBF] = Option.none := by
  constructor
  · simp [determineProcessingStatusOfFile, detectBomFromBuffer,
      getBytesPerBom, scan]
  · simp [determineProcessingStatusOfFile, detectBomFromBuffer,
      getBytesPerBom, scan]

/-- C5: the outcome of the classifier is identical whether or not BOM
detection reported a failure: the callback of source line 27 binds
`(err, bom)` and its body never consults `err`, so no code path maps a
BOM-detection failure to status `error` (contradicting the claim that
every failure mode, including BOM-detection failure, completes the
per-file operation with status `error`). -/
theorem C5_bom_error_ignored (e₁ e₂ : Bool) (bom : Bom) (c : List Nat) :
    determineStatusWithBomOutcome e₁ bom c =
      determineStatusWithBomOutcome e₂ bom c := rfl

/-- C6: for the UTF-16 LE input FF FE 61 00 0D 00 0A 00 62 00 (BOM plus the
characters of the text a CR LF b in 2-byte little-endian units),
classification returns `bad`, and the rewrite removes exactly the 2-byte
CR unit, keeping the BOM, the LF unit and all surrounding bytes intact. -/
theorem C6_utf16le_scenario :
    determineProcessingStatusOfFile
        [0xFF, 0xFE, 0x61, 0x00, 0x0D, 0x00, 0x0A, 0x00, 0x62, 0x00] =
      some Status.bad ∧
    convertFileFromDosToUnix
        [0xFF, 0xFE, 0x61, 0x00, 0x0D, 0x00, 0x0A, 0x00, 0x62, 0x00] =
      [0xFF, 0xFE, 0x61, 0x00, 0x0A, 0x00, 0x62, 0x00] := by
  constructor
  · simp [determineProcessingStatusOfFile, detectBomFromBuffer, getBytesPerBom,
      scan, scanStep, isByteSequenceCR, isByteSequenceLF,
      doesByteSequenceSuggestBinary, crPattern, lfPattern,
      getBytesPerControlChar]
  · simp [convertFileFromDosToUnix, convertLoop, bufferSlice,
      detectBomFromBuffer, getBytesPerBom, isByteSequenceCR, isByteSequenceLF,
      crPattern, lfPattern, getBytesPerControlChar]

/-! Scan behaviour on a binary window. -/

lemma isEmpty_false_of_length_pos {l : List Nat} (h : 0 < l.length) :
    l.isEmpty = false := by
  cases l with
  | nil => simp at h
  | cons a t => rfl

lemma scan_binary_stop (bom : Bom) :
    ∀ (pre : List (List Nat)) (bw suf : List Nat) (lastCR nf : Bool),
      (∀ win ∈ pre, win.length = getBytesPerControlChar bom ∧
        doesByteSequenceSuggestBinary win bom = false) →
      bw.length = getBytesPerControlChar bom →
      doesByteSequenceSuggestBinary bw bom = true →
      scan bom (pre.flatten ++ bw ++ suf) lastCR nf = some Status.binary := by
  have hw : 0 < getBytesPerControlChar bom := bytesPerControlChar_pos bom
  intro pre
  induction pre with
  | nil =>
    intro bw suf lastCR nf _ hbw hbin
    rw [List.flatten_nil, List.nil_append]
    rw [scan]
    have hne : ((bw ++ suf).isEmpty) = false :=
      isEmpty_false_of_length_pos (by rw [List.length_append]; omega)
    have hle : getBytesPerControlChar bom ≤ (bw ++ suf).length := by
      rw [List.length_append]
      omega
    simp only [hne, Bool.false_eq_true, if_false, dif_pos hle]
    rw [List.take_left' hbw, hbin]
    simp
  | cons p pre' ih =>
    intro bw suf lastCR nf hpre hbw hbin
    have hp := hpre p (by simp)
    have hp1 := hp.1
    rw [List.flatten_cons, List.append_assoc, List.append_assoc]
    rw [scan]
    have hne : ((p ++ (pre'.flatten ++ (bw ++ suf))).isEmpty) = false :=
      isEmpty_false_of_length_pos (by rw [List.length_append]; omega)
    have hle : getBytesPerControlChar bom ≤
        (p ++ (pre'.flatten ++ (bw ++ suf))).length := by
      rw [List.length_append]
      omega
    simp only [hne, Bool.false_eq_true, if_false, dif_pos hle]
    rw [List.take_left' hp.1, hp.2]
    simp only [Bool.false_eq_true, if_false]
    rw [List.drop_left' hp.1]
    have hrecne : ((pre'.flatten ++ (bw ++ suf)).isEmpty) = false :=
      isEmpty_false_of_length_pos
        (by rw [List.length_append, List.length_append]; omega)
    rw [hrecne]
    simp only [Bool.false_eq_true, if_false]
    have hstep := ih bw suf (scanStep bom p lastCR nf).1
      (scanStep bom p lastCR nf).2
      (fun win hwin => hpre win (by simp [hwin])) hbw hbin
    rwa [List.append_assoc] at hstep

/-- C8: a file whose payload consists of some complete non-binary windows,
then a binary-indicating window, then an arbitrary suffix, is classified
`binary`; the suffix is universally quantified and the conclusion does not
depend on it, which expresses that the scan stops at the first
binary-indicating window and never inspects any later control unit — even
when the suffix contains CRLF pairs. -/
theorem C8_binary_stops_scan (c : List Nat) (pre : List (List Nat))
    (bw suf : List Nat)
    (hsplit : c.drop (getBytesPerBom (detectBomFromBuffer (c.take 4))) =
      pre.flatten ++ bw ++ suf)
    (hpre : ∀ win ∈ pre,
      win.length = getBytesPerControlChar (detectBomFromBuffer (c.take 4)) ∧
      doesByteSequenceSuggestBinary win (detectBomFromBuffer (c.take 4)) = false)
    (hbw : bw.length = getBytesPerControlChar (detectBomFromBuffer (c.take 4)))
    (hbin : doesByteSequenceSuggestBinary bw (detectBomFromBuffer (c.take 4)) =
      true) :
    determineProcessingStatusOfFile c = some Status.binary := by
  have hw : 0 < getBytesPerControlChar (detectBomFromBuffer (c.take 4)) :=
    bytesPerControlChar_pos _
  have hple : getBytesPerBom (detectBomFromBuffer (c.take 4)) ≤ c.length := by
    by_contra hx
    rw [Nat.not_le] at hx
    have hnil : c.drop (getBytesPerBom (detectBomFromBuffer (c.take 4))) = [] :=
      List.drop_eq_nil_of_le (by omega)
    rw [hnil] at hsplit
    have := congrArg List.length hsplit
    simp at this
    omega
  rw [determine_eq_scan c hple, hsplit]
  exact scan_binary_stop _ pre bw suf false false hpre hbw hbin

/-- Witness for C8 at the content 97 0 13 10 (Scenario E: a text byte, a
NUL window, then a CRLF pair after the binary window). -/
theorem C8_binary_stops_scan_witness :
    ([97, 0, 13, 10].drop
        (getBytesPerBom (detectBomFromBuffer ([97, 0, 13, 10].take 4))) =
      [[97]].flatten ++ [0] ++ [13, 10]) ∧
    determineProcessingStatusOfFile [97, 0, 13, 10] = some Status.binary := by
  have hsplit : [97, 0, 13, 10].drop
      (getBytesPerBom (detectBomFromBuffer ([97, 0, 13, 10].take 4))) =
      [[97]].flatten ++ [0] ++ [13, 10] := by decide
  exact ⟨hsplit, C8_binary_stops_scan [97, 0, 13, 10] [[97]] [0] [13, 10]
    hsplit (by decide) (by decide) (by decide)⟩

/-! Scan behaviour on a ragged (partial-final-window) payload. -/

lemma scanW_ragged (bom : Bom) :
    ∀ (ws : List (List Nat)) (lastCR nf : Bool),
      (∀ win ∈ ws, doesByteSequenceSuggestBinary win bom = false) →
      scanW bom ws true lastCR nf = some Status.error := by
  intro ws
  induction ws with
  | nil => intro lastCR nf _; simp [scanW]
  | cons win rest ih =>
    intro lastCR nf hbin
    have hwin : doesByteSequenceSuggestBinary win bom = false :=
      hbin win (by simp)
    rw [scanW]
    simp only [hwin, Bool.false_eq_true, if_false, Bool.not_true,
      Bool.and_false]
    exact ih _ _ (fun x hx => hbin x (by simp [hx]))

/-- C10 counterexample: the UTF-16 LE content FF FE 61 00 00 00 61 has an
odd payload length (5 bytes after the 2-byte BOM), but its second complete
window 00 00 is a binary indicator, so classification returns `binary`,
not `error` as the claim asserts for every file with a non-aligned
payload. -/
theorem C10_counterexample :
    ¬ (getBytesPerControlChar
        (detectBomFromBuffer ([0xFF, 0xFE, 0x61, 0x00, 0x00, 0x00, 0x61].take 4)) ∣
      ([0xFF, 0xFE, 0x61, 0x00, 0x00, 0x00, 0x61].drop
        (getBytesPerBom
          (detectBomFromBuffer
            ([0xFF, 0xFE, 0x61, 0x00, 0x00, 0x00, 0x61].take 4)))).length) ∧
    determineProcessingStatusOfFile [0xFF, 0xFE, 0x61, 0x00, 0x00, 0x00, 0x61] =
      some Status.binary := by
  constructor
  · decide
  · simp [determineProcessingStatusOfFile, detectBomFromBuffer, getBytesPerBom,
      scan, scanStep, isByteSequenceCR, isByteSequenceLF,
      doesByteSequenceSuggestBinary, crPattern, lfPattern,
      getBytesPerControlChar]

/-- C10 amended: a file whose payload length after the BOM is not a whole
multiple of the control-unit width is classified `error` — provided no
complete window before the ragged tail is a binary indicator (a binary
window preempts the partial-window error, see the counterexample).  The
final partial window is treated as an error even at end of file. -/
theorem C10_theorem (c : List Nat)
    (hodd : ¬ (getBytesPerControlChar (detectBomFromBuffer (c.take 4)) ∣
      (c.drop (getBytesPerBom (detectBomFromBuffer (c.take 4)))).length))
    (hbinf : ∀ win ∈ chunks (getBytesPerControlChar (detectBomFromBuffer (c.take 4)))
        (c.drop (getBytesPerBom (detectBomFromBuffer (c.take 4)))),
      doesByteSequenceSuggestBinary win (detectBomFromBuffer (c.take 4)) = false) :
    determineProcessingStatusOfFile c = some Status.error := by
  by_cases hple : getBytesPerBom (detectBomFromBuffer (c.take 4)) ≤ c.length
  · rw [determine_eq_scan c hple, scan_eq_scanW]
    have hragged : ((c.drop (getBytesPerBom (detectBomFromBuffer (c.take 4)))).length %
        getBytesPerControlChar (detectBomFromBuffer (c.take 4)) != 0) = true := by
      have hmod : (c.drop (getBytesPerBom (detectBomFromBuffer (c.take 4)))).length %
          getBytesPerControlChar (detectBomFromBuffer (c.take 4)) ≠ 0 :=
        fun hx => hodd (Nat.dvd_of_mod_eq_zero hx)
      simpa using hmod
    rw [hragged]
    exact scanW_ragged _ _ _ _ hbinf
  · exfalso
    have hnil : c.drop (getBytesPerBom (detectBomFromBuffer (c.take 4))) = [] :=
      List.drop_eq_nil_of_le (by omega)
    rw [hnil] at hodd
    exact hodd (by simp)

/-- Witness for the amended C10 at the UTF-16 LE content FF FE 61 00 61
(payload of 3 bytes, one complete non-binary window then a 1-byte partial
window). -/
theorem C10_theorem_witness :
    ¬ (getBytesPerControlChar
        (detectBomFromBuffer ([0xFF, 0xFE, 0x61, 0x00, 0x61].take 4)) ∣
      ([0xFF, 0xFE, 0x61, 0x00, 0x61].drop
        (getBytesPerBom
          (detectBomFromBuffer ([0xFF, 0xFE, 0x61, 0x00, 0x61].take 4)))).length) ∧
    determineProcessingStatusOfFile [0xFF, 0xFE, 0x61, 0x00, 0x61] =
      some Status.error := by
  refine ⟨by decide, C10_theorem [0xFF, 0xFE, 0x61, 0x00, 0x61] (by decide) ?_⟩
  simp [detectBomFromBuffer, getBytesPerBom, getBytesPerControlChar, chunks,
    doesByteSequenceSuggestBinary]

end Dos2Unix
